import Mathlib

/-!
# Dependence graph construction and ASAP/ALAP scheduling (`ql/dependenceGraph.h`)

A shallow embedding of `DependGraph` from `src/ql/dependenceGraph.h`.

The class keeps a LEMON `ListDigraph` together with node and arc maps.  The
graph is never shrunk, so the LEMON behaviour the class relies on is:

* `addNode` hands out the ids `0, 1, 2, ...` and links the new node at the
  front of the node list, so `NodeIt` (and every `NodeMap::MapIt`) visits the
  nodes in descending id order;
* `addArc (u, v)` links the new arc at the front of the out-list of `u` and of
  the in-list of `v`, so `OutArcIt` and `InArcIt` visit the arcs of a node
  starting with the one created last.

Machine integers: node ids, operand indices and latencies are natural numbers;
the `size_t` arithmetic of the two schedulers is written with an explicit
`% 2 ^ 64`, and the assignment of a latency to the `int` arc map `weight` with
an explicit `% 2 ^ 32` (`intWeight`).
-/

namespace OpenQL

/-! ## Data model -/

/-- The enumeration `DepTypes` of the source. -/
inductive DepTypes where
  | RAW
  | WAW
  | WAR
  deriving DecidableEq

/-- `MAX_CYCLE = std::numeric_limits<std::size_t>::max ()`, for a 64-bit `size_t`. -/
def MAX_CYCLE : Nat := 2 ^ 64 - 1

/-- What the code reads of a `ql::gate` (declared in `gate.h`): the operand
list, the latency and the text returned by `qasm ()`. -/
structure gate where
  operands : List Nat
  latency : Nat
  qasm : String
  deriving DecidableEq

/-- A `ql::circuit` is a sequence of gates. -/
abbrev circuit := List gate

/-- An arc of the `ListDigraph` with the values of the arc maps `weight`,
`cause` and `depType`.  The map `weight` is an `ArcMap<int>` that the code only
reads inside the `size_t` sum of `ScheduleASAP` and the `size_t` difference of
`ScheduleALAP`, where the `int` is converted to `size_t`; the field `weight`
holds this converted value: a non-negative `int` unchanged, a negative `int`
`w` as `2 ^ 64 + w` (see `intWeight`).  The field `cause` holds the operand
index assigned to `cause[arc]`. -/
structure Arc where
  source : Nat
  target : Nat
  weight : Nat
  cause : Nat
  depType : DepTypes
  deriving DecidableEq

/-- The state of a `DependGraph` object: the digraph (`nodeNum` nodes with ids
`0 .. nodeNum - 1`, the arcs in the order of their creation), the node map
`instruction` (the map `name` is `instruction[n]->qasm ()` throughout) and the
two distinguished nodes `s` and `t`. -/
structure DependGraph where
  nodeNum : Nat
  arcs : List Arc
  instruction : List gate
  s : Nat
  t : Nat

namespace DependGraph

/-- The freshly constructed object: an empty digraph (`s` and `t` are not yet
meaningful). -/
def empty : DependGraph := ⟨0, [], [], 0, 0⟩

/-- The pair `graph.addNode ()` / `instruction[node] = ins`; the id of the new
node is the old `nodeNum`. -/
def addNode (g : DependGraph) (ins : gate) : DependGraph :=
  { g with nodeNum := g.nodeNum + 1, instruction := g.instruction ++ [ins] }

/-- The call `graph.addArc (u, v)` followed by the assignments to `weight`,
`cause` and `depType` of the new arc. -/
def addArc (g : DependGraph) (u v w c : Nat) (d : DepTypes) : DependGraph :=
  { g with arcs := g.arcs ++ [⟨u, v, w, c, d⟩] }

/-- The order in which `ListDigraph::NodeIt` visits the nodes. -/
def nodeIt (g : DependGraph) : List Nat := (List.range g.nodeNum).reverse

/-- The order in which `ListDigraph::InArcIt` visits the arcs entering `v`. -/
def inArcIt (g : DependGraph) (v : Nat) : List Arc :=
  (g.arcs.filter (fun a => a.target = v)).reverse

/-- The order in which `ListDigraph::OutArcIt` visits the arcs leaving `u`. -/
def outArcIt (g : DependGraph) (u : Nat) : List Arc :=
  (g.arcs.filter (fun a => a.source = u)).reverse

/-- The value of `OutDegMap` at `u`. -/
def outDeg (g : DependGraph) (u : Nat) : Nat :=
  (g.arcs.filter (fun a => a.source = u)).length

/-- The value `instruction[n]->latency`. -/
def latencyOf (g : DependGraph) (n : Nat) : Nat :=
  match g.instruction[n]? with
  | some ins => ins.latency
  | none => 0

end DependGraph

/-- The value of `weight[arc]` after the assignment
`weight[arc] = instruction[n]->latency`.  The map is an `ArcMap<int>`: the
assignment keeps the latency modulo `2 ^ 32`, read as a signed 32-bit number,
so a latency below `2 ^ 31` is kept unchanged, `2 ^ 32 + 5` becomes `5` and
`2 ^ 31` becomes `- 2 ^ 31`.  The result is given as the `size_t` value that
the schedulers read: a negative `int` `w` is `2 ^ 64 + w`. -/
def intWeight (latency : Nat) : Nat :=
  if latency % 2 ^ 32 < 2 ^ 31 then latency % 2 ^ 32
  else latency % 2 ^ 32 + (2 ^ 64 - 2 ^ 32)

open DependGraph

/-! ## `DependGraph::Init` -/

/-- The local state of `Init` while the instructions are processed: the graph
and the two vectors `LastReaders` and `LastWriter` (both of size `nQubits`). -/
structure BuildState where
  G : DependGraph
  LastReaders : List (List Nat)
  LastWriter : List Nat

/-- The inner loop `for (auto & readerID : readers)`: one WAR arc per entry of
`readers`. -/
def warLoop (prodID srcID consID operand : Nat) (readers : List Nat) (g : DependGraph) :
    DependGraph :=
  readers.foldl
    (fun g readerID =>
      g.addArc readerID consID
        (if prodID = srcID then 1 else intWeight (g.latencyOf readerID))
        operand DepTypes.WAR)
    g

/-- The body of the loop `for (auto operand : operands)`; `size` is
`operands.size ()` and `operandNo` the running counter. -/
def operandStep (srcID consID size : Nat) (st : BuildState) (operandNo operand : Nat) :
    BuildState :=
  let prodID := (st.LastWriter[operand]?).getD srcID
  let w := if prodID = srcID then 1 else intWeight (st.G.latencyOf prodID)
  if operandNo = size - 1 then
    let g1 := st.G.addArc prodID consID w operand DepTypes.WAW
    let readers := (st.LastReaders[operand]?).getD []
    { G := warLoop prodID srcID consID operand readers g1
      LastReaders := st.LastReaders
      LastWriter := st.LastWriter.set operand consID }
  else
    let g1 := st.G.addArc prodID consID w operand DepTypes.RAW
    { G := g1
      LastReaders := st.LastReaders.set operand ((st.LastReaders[operand]?).getD [] ++ [consID])
      LastWriter := st.LastWriter }

/-- The loop `for (auto operand : operands)` with its counter `operandNo`. -/
def operandLoop (srcID consID size : Nat) : Nat → List Nat → BuildState → BuildState
  | _, [], st => st
  | operandNo, operand :: rest, st =>
      operandLoop srcID consID size (operandNo + 1) rest
        (operandStep srcID consID size st operandNo operand)

/-- The body of the loop `for (auto ins : ckt)`: a new node for the
instruction, then its operands. -/
def instructionStep (srcID : Nat) (st : BuildState) (ins : gate) : BuildState :=
  let consID := st.G.nodeNum
  operandLoop srcID consID ins.operands.length 0 ins.operands
    { st with G := st.G.addNode ins }

/-- The state of `Init` before the first instruction: the dummy source node
exists, nobody has read, the source is the last writer of every qubit. -/
def initState (nop : gate) (nqubits : Nat) : BuildState :=
  { G := { (DependGraph.empty.addNode nop) with s := 0 }
    LastReaders := List.replicate nqubits []
    LastWriter := List.replicate nqubits 0 }

/-- The loop that links every node without a leaving arc to the dummy target
(`OutDegMap` follows the graph while arcs are added). -/
def closeLoop (targetNode : Nat) (g : DependGraph) : DependGraph :=
  (nodeIt g).foldl
    (fun g n =>
      if g.outDeg n = 0 ∧ n ≠ targetNode then g.addArc n targetNode 1 0 DepTypes.RAW else g)
    g

/-- The function `DependGraph::Init (ckt, nqubits)` on a fresh object.  `nop`
is the gate `new ql::nop ()` attached to the two dummy nodes.  The vectors
`LastWriter` and `LastReaders` are indexed without a check in the source, so
the embedding is meaningful for operands below `nqubits` only. -/
def Init (nop : gate) (ckt : circuit) (nqubits : Nat) : DependGraph :=
  let srcID := 0
  let st := ckt.foldl (instructionStep srcID) (initState nop nqubits)
  let targetNode := st.G.nodeNum
  closeLoop targetNode { (st.G.addNode nop) with t := targetNode }

/-! ## Topological order and the two schedulers -/

/-- The function `DependGraph::TopologicalSort (order)`.  The test `!dag (graph)`
only writes a line to standard output and the function goes on; the rank map
`rorder` filled by `lemon::topologicalSort` is only read inside the `DEBUG`
block; the closing loop runs a `MapIt` over it, which visits the nodes in
`NodeIt` order, and pushes every node it visits. -/
def TopologicalSort (g : DependGraph) (order : List Nat) : List Nat :=
  order ++ nodeIt g

/-- Assignment `cycle[n] = c` on a `NodeMap<size_t>`. -/
def setCycle (cycle : Nat → Nat) (n c : Nat) : Nat → Nat :=
  fun m => if m = n then c else cycle m

/-- The `InArcIt` loop of `ScheduleASAP` for the node `v`. -/
def asapNode (g : DependGraph) (cycle : Nat → Nat) (v : Nat) : Nat :=
  (g.inArcIt v).foldl
    (fun currCycle arc =>
      let srcCycle := cycle arc.source
      if currCycle ≤ srcCycle then (srcCycle + arc.weight) % 2 ^ 64 else currCycle)
    0

/-- The function `DependGraph::ScheduleASAP (cycle, order)`: the order is
walked from its back to its front. -/
def ScheduleASAP (g : DependGraph) (cycle : Nat → Nat) (order : List Nat) :
    (Nat → Nat) × List Nat :=
  let order := TopologicalSort g order
  match order.reverse with
  | [] => (cycle, order)
  | first :: rest =>
      (rest.foldl (fun cycle v => setCycle cycle v (asapNode g cycle v)) (setCycle cycle first 0),
        order)

/-- The `OutArcIt` loop of `ScheduleALAP` for the node `u`; the subtraction
`targetCycle - + weight[arc]` is a `size_t` subtraction. -/
def alapNode (g : DependGraph) (cycle : Nat → Nat) (u : Nat) : Nat :=
  (g.outArcIt u).foldl
    (fun currCycle arc =>
      let targetCycle := cycle arc.target
      if currCycle ≥ targetCycle then (targetCycle + (2 ^ 64 - arc.weight % 2 ^ 64)) % 2 ^ 64
      else currCycle)
    MAX_CYCLE

/-- The function `DependGraph::ScheduleALAP (cycle, order)`: the order is
walked from its front to its back. -/
def ScheduleALAP (g : DependGraph) (cycle : Nat → Nat) (order : List Nat) :
    (Nat → Nat) × List Nat :=
  let order := TopologicalSort g order
  match order with
  | [] => (cycle, order)
  | first :: rest =>
      (rest.foldl (fun cycle u => setCycle cycle u (alapNode g cycle u))
          (setCycle cycle first MAX_CYCLE),
        order)

/-- The value `TotalCycles = MAX_CYCLE - cycle[*order.rbegin ()]` of `PrintDot2_`
and `PrintQASMScheduledALAP`. -/
def TotalCycles (cycle : Nat → Nat) (order : List Nat) : Nat :=
  match order.reverse with
  | [] => 0
  | last :: _ => (MAX_CYCLE + (2 ^ 64 - cycle last % 2 ^ 64)) % 2 ^ 64

/-- The cycle `TotalCycles - (MAX_CYCLE - cycle[n])` that `PrintDot2_` reports
for the node `n` (two `size_t` subtractions). -/
def reportedALAP (cycle : Nat → Nat) (order : List Nat) (n : Nat) : Nat :=
  (TotalCycles cycle order +
    (2 ^ 64 - ((MAX_CYCLE + (2 ^ 64 - cycle n % 2 ^ 64)) % 2 ^ 64) % 2 ^ 64)) % 2 ^ 64

/-! ## Notions used to state the properties -/

/-- A walk of the graph: `isWalk g u p v` says that the arcs `p`, all arcs of
`g`, lead from `u` to `v` when followed in order. -/
def isWalk (g : DependGraph) : Nat → List Arc → Nat → Prop
  | u, [], v => u = v
  | u, a :: p, v => a ∈ g.arcs ∧ a.source = u ∧ isWalk g a.target p v

/-- A directed cycle is a closed walk with at least one arc; an arc from a
node to itself is a cycle of length one. -/
def hasCycle (g : DependGraph) : Prop :=
  ∃ u p, p ≠ [] ∧ isWalk g u p u

/-- The operand list of the instruction at position `j` of the sequence (its
node has the id `j + 1`). -/
def opsOf (ckt : circuit) (j : Nat) : List Nat :=
  match ckt[j]? with
  | some ins => ins.operands
  | none => []

/-- The latency of the instruction whose node has the id `n` (`n ≥ 1`). -/
def instrLatency (ckt : circuit) (n : Nat) : Nat :=
  match ckt[n - 1]? with
  | some ins => ins.latency
  | none => 0

/-- The last writer of `q` as seen by the instruction at position `k`: the
node of the latest earlier instruction whose last operand is `q`, or the
Entry node `0` when no earlier instruction has `q` as its last operand. -/
def lastWriter (ckt : circuit) : Nat → Nat → Nat
  | 0, _ => 0
  | k + 1, q => if (opsOf ckt k).getLast? = some q then k + 1 else lastWriter ckt k q

/-- The weight rule of the arcs that start at a last writer `p`: `1` for the
Entry node, the latency of the instruction, as the `int` map holds it,
otherwise. -/
def prodWeight (ckt : circuit) (p : Nat) : Nat :=
  if p = 0 then 1 else intWeight (instrLatency ckt p)

/-- The nodes that have read `q` before the instruction at position `k`: one
entry per occurrence of `q` at a non-last operand position of an earlier
instruction, in sequence order. -/
def readersBefore (ckt : circuit) (k q : Nat) : List Nat :=
  (List.range k).flatMap (fun j => List.replicate ((opsOf ckt j).dropLast.count q) (j + 1))

/-- The arc from the last writer of `q` to the instruction at position `k`. -/
def prodArc (ckt : circuit) (k q : Nat) (d : DepTypes) : Arc :=
  ⟨lastWriter ckt k q, k + 1, prodWeight ckt (lastWriter ckt k q), q, d⟩

/-- The WAR arc from the reader `r` to the instruction at position `k`, as the
code weighs it. -/
def warArc (ckt : circuit) (k q r : Nat) : Arc :=
  ⟨r, k + 1, if lastWriter ckt k q = 0 then 1 else intWeight (instrLatency ckt r), q,
    DepTypes.WAR⟩

/-- All arcs that the operand loop creates for the instruction at position
`k`, in the order of their creation. -/
def insArcs (ckt : circuit) (k : Nat) : List Arc :=
  (opsOf ckt k).dropLast.map (fun q => prodArc ckt k q DepTypes.RAW) ++
    match (opsOf ckt k).getLast? with
    | none => []
    | some q =>
        prodArc ckt k q DepTypes.WAW ::
          (readersBefore ckt k q ++
            List.replicate ((opsOf ckt k).dropLast.count q) (k + 1)).map (warArc ckt k q)

/-- The arcs created for the first `k` instructions. -/
def bodyArcs (ckt : circuit) (k : Nat) : List Arc :=
  (List.range k).flatMap (insArcs ckt)

/-- The arcs that the closing loop adds on top of the arcs `A` for the nodes
`0 .. t - 1`. -/
def closeArcs (A : List Arc) (t : Nat) : List Arc :=
  ((List.range t).reverse.filter
      (fun n => (A.filter (fun a => a.source = n)).length = 0)).map
    (fun n => ⟨n, t, 1, 0, DepTypes.RAW⟩)

/-- The state of `Init` after the first `k` instructions. -/
def stateAfter (nop : gate) (ckt : circuit) (nqubits k : Nat) : BuildState :=
  (ckt.take k).foldl (instructionStep 0) (initState nop nqubits)

/-- Operand lists are within the operand space. -/
def InRange (ckt : circuit) (nqubits : Nat) : Prop :=
  ∀ ins ∈ ckt, ∀ q ∈ ins.operands, q < nqubits

/-- Every instruction has at least one operand. -/
def NonEmptyOps (ckt : circuit) : Prop :=
  ∀ ins ∈ ckt, ins.operands ≠ []

/-- No instruction has its last (written) operand at an earlier position as
well. -/
def LastNotRead (ckt : circuit) : Prop :=
  ∀ ins ∈ ckt, ∀ q, ins.operands.getLast? = some q → q ∉ ins.operands.dropLast

/-- The sequence `ord` is a topological order of `g`: every node occurs exactly
once, Entry comes first, Exit last, and every arc goes forward. -/
def IsTopologicalOrder (g : DependGraph) (ord : List Nat) : Prop :=
  (∀ v, v < g.nodeNum → ord.count v = 1) ∧ (∀ v ∈ ord, v < g.nodeNum) ∧
    ord.head? = some g.s ∧ ord.getLast? = some g.t ∧
    ∀ a ∈ g.arcs, ∀ i j : Nat, ord[i]? = some a.source → ord[j]? = some a.target → i < j

/-- The arc that the operand loop creates first for an operand, from the
entries of `LastWriter` and of the `instruction` map. -/
def firstArc (LW : List Nat) (instr : List gate) (srcID consID q : Nat) (d : DepTypes) : Arc :=
  ⟨(LW[q]?).getD srcID, consID,
    if (LW[q]?).getD srcID = srcID then 1
    else intWeight (match instr[(LW[q]?).getD srcID]? with
      | some ins => ins.latency
      | none => 0),
    q, d⟩

/-- The WAR arc as the loop weighs it, from the entries of `LastWriter` and of
the `instruction` map. -/
def readerArc (LW : List Nat) (instr : List gate) (srcID consID q r : Nat) : Arc :=
  ⟨r, consID,
    if (LW[q]?).getD srcID = srcID then 1
    else intWeight (match instr[r]? with
      | some ins => ins.latency
      | none => 0),
    q, DepTypes.WAR⟩

/-! ## The per-cycle listing of `PrintQASMScheduledASAP` -/

/-- No operand index is repeated inside one instruction. -/
def NodupOps (ckt : circuit) : Prop :=
  ∀ ins ∈ ckt, ins.operands.Nodup

/-- The sequence fits the integer types of the code: the node ids (`int`, as
returned by `graph.id` and stored in `LastWriter`) and the latencies (stored in
the `int` map `weight`) are below `2 ^ 31`.  On such sequences the weights are
the latencies unchanged. -/
def FitsInt (ckt : circuit) : Prop :=
  ckt.length + 2 < 2 ^ 31 ∧ ∀ ins ∈ ckt, ins.latency < 2 ^ 31

/-- The step of the `InArcIt` loop of `ScheduleASAP`. -/
def asapStep (cycle : Nat → Nat) (currCycle : Nat) (arc : Arc) : Nat :=
  if currCycle ≤ cycle arc.source then (cycle arc.source + arc.weight) % 2 ^ 64 else currCycle

/-- The step of the `OutArcIt` loop of `ScheduleALAP`. -/
def alapStep (cycle : Nat → Nat) (currCycle : Nat) (arc : Arc) : Nat :=
  if currCycle ≥ cycle arc.target then
    (cycle arc.target + (2 ^ 64 - arc.weight % 2 ^ 64)) % 2 ^ 64
  else currCycle

/-! ## The graph built by `Init` in closed form -/

@[simp]
theorem addArc_nodeNum (g : DependGraph) (u v w c : Nat) (d : DepTypes) :
    (g.addArc u v w c d).nodeNum = g.nodeNum := rfl

@[simp]
theorem addArc_instruction (g : DependGraph) (u v w c : Nat) (d : DepTypes) :
    (g.addArc u v w c d).instruction = g.instruction := rfl

@[simp]
theorem addArc_arcs (g : DependGraph) (u v w c : Nat) (d : DepTypes) :
    (g.addArc u v w c d).arcs = g.arcs ++ [⟨u, v, w, c, d⟩] := rfl

@[simp]
theorem addArc_s (g : DependGraph) (u v w c : Nat) (d : DepTypes) :
    (g.addArc u v w c d).s = g.s := rfl

@[simp]
theorem addArc_t (g : DependGraph) (u v w c : Nat) (d : DepTypes) :
    (g.addArc u v w c d).t = g.t := rfl

@[simp]
theorem addArc_latencyOf (g : DependGraph) (u v w c : Nat) (d : DepTypes) (n : Nat) :
    (g.addArc u v w c d).latencyOf n = g.latencyOf n := rfl

/-- A latency that is a non-negative value of `int` is its own weight. -/
theorem intWeight_of_lt {x : Nat} (h : x < 2 ^ 31) : intWeight x = x := by
  unfold intWeight
  have h1 : x % 2 ^ 32 = x := Nat.mod_eq_of_lt (by omega)
  rw [h1, if_pos h]

/-- The weight only depends on the latency modulo `2 ^ 32`: the `int` map drops
the upper bits. -/
theorem intWeight_mod (x : Nat) : intWeight (x % 2 ^ 32) = intWeight x := by
  unfold intWeight
  rw [Nat.mod_mod]

/-- The assignment to the `int` map at work: the latency `2 ^ 32 + 5` is held as
`5`, and the latency `2 ^ 31` as `- 2 ^ 31`, which the schedulers read as
`2 ^ 64 - 2 ^ 31`. -/
theorem intWeight_wraps :
    intWeight 4294967301 = 5 ∧ intWeight (2 ^ 31) = 2 ^ 64 - 2 ^ 31 ∧
      intWeight (2 ^ 32 - 1) = 2 ^ 64 - 1 := by
  decide

/-- The WAR loop only appends arcs: one per reader, in the order of the list. -/
theorem warLoop_spec (prodID srcID consID operand : Nat) (readers : List Nat) (g : DependGraph) :
    (warLoop prodID srcID consID operand readers g).nodeNum = g.nodeNum ∧
    (warLoop prodID srcID consID operand readers g).instruction = g.instruction ∧
    (warLoop prodID srcID consID operand readers g).s = g.s ∧
    (warLoop prodID srcID consID operand readers g).t = g.t ∧
    (warLoop prodID srcID consID operand readers g).arcs =
      g.arcs ++ readers.map (fun r =>
        ⟨r, consID, if prodID = srcID then 1 else intWeight (g.latencyOf r), operand,
          DepTypes.WAR⟩) := by
  induction readers generalizing g with
  | nil => simp [warLoop]
  | cons r rs ih =>
    have h := ih (g.addArc r consID (if prodID = srcID then 1 else intWeight (g.latencyOf r))
      operand DepTypes.WAR)
    simp only [warLoop, List.foldl_cons] at h ⊢
    obtain ⟨h1, h2, h3, h4, h5⟩ := h
    refine ⟨by rw [h1]; rfl, by rw [h2]; rfl, by rw [h3]; rfl, by rw [h4]; rfl, ?_⟩
    rw [h5]
    simp

/-- Splitting the operand loop at any point of the operand list. -/
theorem operandLoop_append (srcID consID size : Nat) (xs ys : List Nat) (n : Nat)
    (st : BuildState) :
    operandLoop srcID consID size n (xs ++ ys) st =
      operandLoop srcID consID size (n + xs.length) ys (operandLoop srcID consID size n xs st) := by
  induction xs generalizing n st with
  | nil => simp [operandLoop]
  | cons x xs ih =>
    have h := ih (n + 1) (operandStep srcID consID size st n x)
    show operandLoop srcID consID size (n + 1) (xs ++ ys) (operandStep srcID consID size st n x) =
      operandLoop srcID consID size (n + (xs.length + 1)) ys
        (operandLoop srcID consID size (n + 1) xs (operandStep srcID consID size st n x))
    rw [h]
    congr 1
    omega

/-- The operand loop over operands none of which is the last one. -/
theorem operandLoop_reads (srcID consID size : Nat) (pre : List Nat) (n : Nat) (st : BuildState)
    (hn : n + pre.length < size) (hr : ∀ q ∈ pre, q < st.LastReaders.length) :
    (operandLoop srcID consID size n pre st).G.nodeNum = st.G.nodeNum ∧
    (operandLoop srcID consID size n pre st).G.instruction = st.G.instruction ∧
    (operandLoop srcID consID size n pre st).G.s = st.G.s ∧
    (operandLoop srcID consID size n pre st).G.t = st.G.t ∧
    (operandLoop srcID consID size n pre st).G.arcs =
      st.G.arcs ++ pre.map (fun q =>
        firstArc st.LastWriter st.G.instruction srcID consID q DepTypes.RAW) ∧
    (operandLoop srcID consID size n pre st).LastWriter = st.LastWriter ∧
    (operandLoop srcID consID size n pre st).LastReaders.length = st.LastReaders.length ∧
    ∀ q, ((operandLoop srcID consID size n pre st).LastReaders[q]?).getD [] =
      (st.LastReaders[q]?).getD [] ++ List.replicate (pre.count q) consID := by
  induction pre generalizing n st with
  | nil => simp [operandLoop]
  | cons x xs ih =>
    have hx : n ≠ size - 1 := by simp at hn; omega
    have hstep : operandStep srcID consID size st n x =
        { G := st.G.addArc ((st.LastWriter[x]?).getD srcID) consID
            (if (st.LastWriter[x]?).getD srcID = srcID then 1
              else intWeight (st.G.latencyOf ((st.LastWriter[x]?).getD srcID))) x DepTypes.RAW
          LastReaders := st.LastReaders.set x ((st.LastReaders[x]?).getD [] ++ [consID])
          LastWriter := st.LastWriter } := by
      simp [operandStep, hx]
    have h := ih (n + 1) (operandStep srcID consID size st n x)
      (by simp at hn ⊢; omega)
      (by rw [hstep]; simpa using fun q hq => hr q (List.mem_cons_of_mem _ hq))
    simp only [operandLoop]
    rw [hstep] at h ⊢
    obtain ⟨h1, h2, h3, h4, h5, h6, h7, h8⟩ := h
    dsimp only at h1 h2 h3 h4 h5 h6 h7 h8
    refine ⟨h1, h2, h3, h4, ?_, h6, by simpa using h7, ?_⟩
    · rw [h5]; simp [firstArc, DependGraph.latencyOf]
    · intro q
      rw [h8 q]
      have hxr : x < st.LastReaders.length := hr x (List.mem_cons_self _ _)
      by_cases hq : x = q
      · subst hq
        simp [List.getElem?_set, hxr, List.count_cons]
        rw [← List.replicate_succ, List.replicate_succ']
      · have hq' : (x == q) = false := by simpa using hq
        have : ¬ q = x := fun h => hq h.symm
        simp [List.getElem?_set, hq, List.count_cons, this]

/-- The step of the operand loop for the last operand. -/
theorem operandStep_last (srcID consID size : Nat) (st : BuildState) (n q : Nat)
    (hn : n = size - 1) :
    (operandStep srcID consID size st n q).G.nodeNum = st.G.nodeNum ∧
    (operandStep srcID consID size st n q).G.instruction = st.G.instruction ∧
    (operandStep srcID consID size st n q).G.s = st.G.s ∧
    (operandStep srcID consID size st n q).G.t = st.G.t ∧
    (operandStep srcID consID size st n q).G.arcs =
      st.G.arcs ++ (firstArc st.LastWriter st.G.instruction srcID consID q DepTypes.WAW ::
        ((st.LastReaders[q]?).getD []).map
          (readerArc st.LastWriter st.G.instruction srcID consID q)) ∧
    (operandStep srcID consID size st n q).LastWriter = st.LastWriter.set q consID ∧
    (operandStep srcID consID size st n q).LastReaders = st.LastReaders := by
  have h := warLoop_spec ((st.LastWriter[q]?).getD srcID) srcID consID q
    ((st.LastReaders[q]?).getD [])
    (st.G.addArc ((st.LastWriter[q]?).getD srcID) consID
      (if (st.LastWriter[q]?).getD srcID = srcID then 1
        else intWeight (st.G.latencyOf ((st.LastWriter[q]?).getD srcID))) q DepTypes.WAW)
  obtain ⟨h1, h2, h3, h4, h5⟩ := h
  have hs : operandStep srcID consID size st n q =
      { G := warLoop ((st.LastWriter[q]?).getD srcID) srcID consID q
          ((st.LastReaders[q]?).getD [])
          (st.G.addArc ((st.LastWriter[q]?).getD srcID) consID
            (if (st.LastWriter[q]?).getD srcID = srcID then 1
              else intWeight (st.G.latencyOf ((st.LastWriter[q]?).getD srcID))) q DepTypes.WAW)
        LastReaders := st.LastReaders
        LastWriter := st.LastWriter.set q consID } := by
    simp [operandStep, hn]
  rw [hs]
  refine ⟨h1, h2, h3, h4, ?_, rfl, rfl⟩
  dsimp only
  rw [h5]
  simp [firstArc, readerArc, DependGraph.latencyOf]

/-- The effect of one instruction on the state of `Init`. -/
theorem instructionStep_spec (srcID : Nat) (st : BuildState) (ins : gate)
    (hr : ∀ q ∈ ins.operands, q < st.LastReaders.length) :
    (instructionStep srcID st ins).G.nodeNum = st.G.nodeNum + 1 ∧
    (instructionStep srcID st ins).G.instruction = st.G.instruction ++ [ins] ∧
    (instructionStep srcID st ins).G.s = st.G.s ∧
    (instructionStep srcID st ins).G.arcs =
      st.G.arcs ++ (ins.operands.dropLast.map (fun q =>
        firstArc st.LastWriter (st.G.instruction ++ [ins]) srcID st.G.nodeNum q DepTypes.RAW) ++
        match ins.operands.getLast? with
        | none => []
        | some q =>
            firstArc st.LastWriter (st.G.instruction ++ [ins]) srcID st.G.nodeNum q DepTypes.WAW ::
              ((st.LastReaders[q]?).getD [] ++
                List.replicate (ins.operands.dropLast.count q) st.G.nodeNum).map
                (readerArc st.LastWriter (st.G.instruction ++ [ins]) srcID st.G.nodeNum q)) ∧
    (instructionStep srcID st ins).LastWriter =
      (match ins.operands.getLast? with
        | none => st.LastWriter
        | some q => st.LastWriter.set q st.G.nodeNum) ∧
    (instructionStep srcID st ins).LastReaders.length = st.LastReaders.length ∧
    ∀ q, ((instructionStep srcID st ins).LastReaders[q]?).getD [] =
      (st.LastReaders[q]?).getD [] ++
        List.replicate (ins.operands.dropLast.count q) st.G.nodeNum := by
  rcases List.eq_nil_or_concat ins.operands with h0 | ⟨pre, q, hpq⟩
  · simp [instructionStep, h0, operandLoop, DependGraph.addNode]
  · rw [List.concat_eq_append] at hpq
    have hreads := operandLoop_reads srcID st.G.nodeNum (pre.length + 1) pre 0
      { st with G := st.G.addNode ins } (by omega)
      (fun x hx => hr x (by rw [hpq]; exact List.mem_append_left _ hx))
    obtain ⟨r1, r2, r3, r4, r5, r6, r7, r8⟩ := hreads
    have hlast := operandStep_last srcID st.G.nodeNum (pre.length + 1)
      (operandLoop srcID st.G.nodeNum (pre.length + 1) 0 pre { st with G := st.G.addNode ins })
      (0 + pre.length) q (by omega)
    obtain ⟨l1, l2, l3, l4, l5, l6, l7⟩ := hlast
    have hloop : instructionStep srcID st ins =
        operandStep srcID st.G.nodeNum (pre.length + 1)
          (operandLoop srcID st.G.nodeNum (pre.length + 1) 0 pre
            { st with G := st.G.addNode ins }) (0 + pre.length) q := by
      simp only [instructionStep, hpq, operandLoop_append, List.length_append,
        List.length_singleton, operandLoop]
    rw [hloop]
    simp only [hpq, List.dropLast_concat, List.getLast?_concat]
    rw [l1, l2, l3, l5, l6, l7, r1, r2, r3, r5, r6, r7]
    refine ⟨rfl, rfl, rfl, ?_, rfl, rfl, ?_⟩
    · rw [r8 q]
      simp [DependGraph.addNode]
    · intro x
      rw [r8 x]

theorem opsOf_eq {ckt : circuit} {k : Nat} {ins : gate} (h : ckt[k]? = some ins) :
    opsOf ckt k = ins.operands := by
  simp [opsOf, h]

theorem opsOf_of_le {ckt : circuit} {k : Nat} (h : ckt.length ≤ k) : opsOf ckt k = [] := by
  simp [opsOf, List.getElem?_eq_none h]

theorem lastWriter_le (ckt : circuit) (k q : Nat) : lastWriter ckt k q ≤ k := by
  induction k with
  | zero => simp [lastWriter]
  | succ k ih =>
    simp only [lastWriter]
    split
    · exact le_refl _
    · omega

theorem readersBefore_succ (ckt : circuit) (k q : Nat) :
    readersBefore ckt (k + 1) q =
      readersBefore ckt k q ++ List.replicate ((opsOf ckt k).dropLast.count q) (k + 1) := by
  simp [readersBefore, List.range_succ, List.flatMap_append]

theorem mem_readersBefore {ckt : circuit} {k q r : Nat} :
    r ∈ readersBefore ckt k q ↔ ∃ j, j < k ∧ r = j + 1 ∧ q ∈ (opsOf ckt j).dropLast := by
  simp only [readersBefore, List.mem_flatMap, List.mem_range, List.mem_replicate]
  constructor
  · rintro ⟨j, hj, hc, rfl⟩
    exact ⟨j, hj, rfl, List.count_pos_iff.mp (Nat.pos_of_ne_zero hc)⟩
  · rintro ⟨j, hj, rfl, hq⟩
    exact ⟨j, hj, Nat.pos_iff_ne_zero.mp (List.count_pos_iff.mpr hq), rfl⟩

theorem bodyArcs_succ (ckt : circuit) (k : Nat) :
    bodyArcs ckt (k + 1) = bodyArcs ckt k ++ insArcs ckt k := by
  simp [bodyArcs, List.range_succ, List.flatMap_append]

theorem stateAfter_succ {nop : gate} {ckt : circuit} {nqubits k : Nat} {ins : gate}
    (h : ckt[k]? = some ins) :
    stateAfter nop ckt nqubits (k + 1) =
      instructionStep 0 (stateAfter nop ckt nqubits k) ins := by
  simp [stateAfter, List.take_succ, h, List.foldl_append]

theorem lookup_latency (nop : gate) (ckt : circuit) (k n : Nat) (h1 : 1 ≤ n) (h2 : n ≤ k + 1) :
    (match (nop :: ckt.take (k + 1))[n]? with
      | some ins => ins.latency
      | none => 0) = instrLatency ckt n := by
  obtain ⟨m, rfl⟩ : ∃ m, n = m + 1 := ⟨n - 1, by omega⟩
  have hm : m < k + 1 := by omega
  simp [instrLatency, List.getElem?_take, hm]

/-- The state of `Init` after `k` instructions, in closed form. -/
theorem stateAfter_spec (nop : gate) (ckt : circuit) (nqubits : Nat) (hr : InRange ckt nqubits)
    (k : Nat) (hk : k ≤ ckt.length) :
    (stateAfter nop ckt nqubits k).G.nodeNum = k + 1 ∧
    (stateAfter nop ckt nqubits k).G.instruction = nop :: ckt.take k ∧
    (stateAfter nop ckt nqubits k).G.s = 0 ∧
    (stateAfter nop ckt nqubits k).G.arcs = bodyArcs ckt k ∧
    (stateAfter nop ckt nqubits k).LastWriter.length = nqubits ∧
    (stateAfter nop ckt nqubits k).LastReaders.length = nqubits ∧
    (∀ q, q < nqubits →
      (stateAfter nop ckt nqubits k).LastWriter[q]? = some (lastWriter ckt k q)) ∧
    (∀ q, q < nqubits →
      (stateAfter nop ckt nqubits k).LastReaders[q]? = some (readersBefore ckt k q)) := by
  induction k with
  | zero =>
    simp [stateAfter, initState, DependGraph.addNode, DependGraph.empty, bodyArcs, lastWriter,
      readersBefore, List.getElem?_replicate]
  | succ k ih =>
    obtain ⟨i1, i2, i3, i4, i5, i6, i7, i8⟩ := ih (by omega)
    have hk' : k < ckt.length := by omega
    have hget : ckt[k]? = some ckt[k] := List.getElem?_eq_getElem hk'
    have hops : opsOf ckt k = ckt[k].operands := opsOf_eq hget
    have hin : ∀ q ∈ ckt[k].operands, q < nqubits := hr _ (List.getElem_mem hk')
    obtain ⟨s1, s2, s3, s4, s5, s6, s7⟩ := instructionStep_spec 0 (stateAfter nop ckt nqubits k)
      ckt[k] (by rw [i6]; exact hin)
    rw [i1] at s1 s4 s5 s7
    rw [stateAfter_succ hget]
    have hinstr : (stateAfter nop ckt nqubits k).G.instruction ++ [ckt[k]] =
        nop :: ckt.take (k + 1) := by
      rw [i2, List.take_succ, hget]; simp
    have hfirst : ∀ q, q < nqubits → ∀ d,
        firstArc (stateAfter nop ckt nqubits k).LastWriter
          ((stateAfter nop ckt nqubits k).G.instruction ++ [ckt[k]]) 0
          (k + 1) q d = prodArc ckt k q d := by
      intro q hq d
      have hle := lastWriter_le ckt k q
      simp only [firstArc, prodArc, prodWeight, i7 q hq, hinstr, Option.getD_some]
      by_cases h0 : lastWriter ckt k q = 0
      · simp [h0]
      · rw [lookup_latency nop ckt k _ (by omega) (by omega)]
    have hreader : ∀ q, q < nqubits → ∀ r, 1 ≤ r → r ≤ k + 1 →
        readerArc (stateAfter nop ckt nqubits k).LastWriter
          ((stateAfter nop ckt nqubits k).G.instruction ++ [ckt[k]]) 0
          (k + 1) q r = warArc ckt k q r := by
      intro q hq r hr1 hr2
      simp only [readerArc, warArc, i7 q hq, hinstr, Option.getD_some]
      rw [lookup_latency nop ckt k r hr1 hr2]
    refine ⟨by rw [s1], by rw [s2, hinstr], by rw [s3, i3], ?_, ?_, by rw [s6, i6], ?_, ?_⟩
    · rw [s4, i4, bodyArcs_succ]
      congr 1
      simp only [insArcs, hops]
      congr 1
      · exact List.map_congr_left (fun q hq =>
          hfirst q (hin q (List.mem_of_mem_dropLast hq)) _)
      · cases hl : ckt[k].operands.getLast? with
        | none => rfl
        | some q =>
          have hq : q < nqubits := hin q (List.mem_of_getLast?_eq_some hl)
          simp only
          rw [hfirst q hq, i8 q hq]
          congr 1
          apply List.map_congr_left
          intro r hrm
          apply hreader q hq
          · rcases List.mem_append.mp hrm with h | h
            · obtain ⟨j, _, rfl, _⟩ := mem_readersBefore.mp h
              omega
            · rw [(List.mem_replicate.mp h).2]; omega
          · rcases List.mem_append.mp hrm with h | h
            · obtain ⟨j, hj, rfl, _⟩ := mem_readersBefore.mp h
              omega
            · rw [(List.mem_replicate.mp h).2]
    · rw [s5]
      cases hl : ckt[k].operands.getLast? with
      | none => exact i5
      | some q => simp [i5]
    · intro q hq
      rw [s5]
      simp only [lastWriter, hops]
      cases hl : ckt[k].operands.getLast? with
      | none => simpa using i7 q hq
      | some q' =>
        have hq' : q' < nqubits := hin q' (List.mem_of_getLast?_eq_some hl)
        by_cases hqq : q' = q
        · subst hqq
          simp [List.getElem?_set, i5, hq]
        · have : ¬ some q' = some q := fun h => hqq (Option.some.inj h)
          simp [List.getElem?_set, hqq, i7 q hq]
    · intro q hq
      have hlen : q < (instructionStep 0 (stateAfter nop ckt nqubits k) ckt[k]).LastReaders.length := by
        rw [s6, i6]; exact hq
      have h := s7 q
      rw [List.getElem?_eq_getElem hlen] at h ⊢
      rw [i8 q hq] at h
      simp only [Option.getD_some] at h
      rw [h, readersBefore_succ, hops]

/-- The closing loop over a duplicate-free list of nodes, in closed form: the
out-degree test can be made on the graph the loop starts from. -/
theorem closeFold_spec (t : Nat) (ns : List Nat) (hnd : ns.Nodup) (g : DependGraph) :
    (ns.foldl (fun g n =>
        if g.outDeg n = 0 ∧ n ≠ t then g.addArc n t 1 0 DepTypes.RAW else g) g).nodeNum
      = g.nodeNum ∧
    (ns.foldl (fun g n =>
        if g.outDeg n = 0 ∧ n ≠ t then g.addArc n t 1 0 DepTypes.RAW else g) g).instruction
      = g.instruction ∧
    (ns.foldl (fun g n =>
        if g.outDeg n = 0 ∧ n ≠ t then g.addArc n t 1 0 DepTypes.RAW else g) g).s = g.s ∧
    (ns.foldl (fun g n =>
        if g.outDeg n = 0 ∧ n ≠ t then g.addArc n t 1 0 DepTypes.RAW else g) g).t = g.t ∧
    (ns.foldl (fun g n =>
        if g.outDeg n = 0 ∧ n ≠ t then g.addArc n t 1 0 DepTypes.RAW else g) g).arcs
      = g.arcs ++ (ns.filter (fun n =>
          (g.arcs.filter (fun a => a.source = n)).length = 0 ∧ n ≠ t)).map
            (fun n => ⟨n, t, 1, 0, DepTypes.RAW⟩) := by
  induction ns generalizing g with
  | nil => simp
  | cons x xs ih =>
    have hx : x ∉ xs := (List.nodup_cons.mp hnd).1
    have hxs : xs.Nodup := (List.nodup_cons.mp hnd).2
    simp only [List.foldl_cons]
    by_cases hc : g.outDeg x = 0 ∧ x ≠ t
    · obtain ⟨h1, h2, h3, h4, h5⟩ := ih hxs (g.addArc x t 1 0 DepTypes.RAW)
      rw [if_pos hc]
      refine ⟨h1, h2, h3, h4, ?_⟩
      rw [h5]
      have hc' : (g.arcs.filter (fun a => a.source = x)).length = 0 ∧ x ≠ t := hc
      have hf : xs.filter (fun n =>
            (((g.addArc x t 1 0 DepTypes.RAW).arcs.filter (fun a => a.source = n)).length = 0
              ∧ n ≠ t : Prop)) =
          xs.filter (fun n => (g.arcs.filter (fun a => a.source = n)).length = 0 ∧ n ≠ t) := by
        apply List.filter_congr
        intro n hn
        have hne : ¬ x = n := fun h => hx (h ▸ hn)
        simp [List.filter_append, hne]
      rw [hf, List.filter_cons_of_pos (by simpa using hc')]
      simp
    · obtain ⟨h1, h2, h3, h4, h5⟩ := ih hxs g
      rw [if_neg hc]
      refine ⟨h1, h2, h3, h4, ?_⟩
      rw [h5]
      have hc' : ¬ ((g.arcs.filter (fun a => a.source = x)).length = 0 ∧ x ≠ t) := hc
      rw [List.filter_cons_of_neg (by simpa using hc')]

/-- The graph built by `Init`, in closed form: nodes `0` (Entry), `1 .. n`
(the instructions in sequence order) and `n + 1` (Exit); first the arcs of the
instructions, then the closing arcs. -/
theorem Init_spec (nop : gate) (ckt : circuit) (nqubits : Nat) (hr : InRange ckt nqubits) :
    (Init nop ckt nqubits).nodeNum = ckt.length + 2 ∧
    (Init nop ckt nqubits).instruction = nop :: ckt ++ [nop] ∧
    (Init nop ckt nqubits).s = 0 ∧
    (Init nop ckt nqubits).t = ckt.length + 1 ∧
    (Init nop ckt nqubits).arcs =
      bodyArcs ckt ckt.length ++ closeArcs (bodyArcs ckt ckt.length) (ckt.length + 1) := by
  obtain ⟨i1, i2, i3, i4, -, -, -, -⟩ := stateAfter_spec nop ckt nqubits hr ckt.length (le_refl _)
  have hst : ckt.foldl (instructionStep 0) (initState nop nqubits) =
      stateAfter nop ckt nqubits ckt.length := by
    simp [stateAfter]
  have hnd : (nodeIt { ((stateAfter nop ckt nqubits ckt.length).G.addNode nop) with
      t := ckt.length + 1 }).Nodup := by
    simp [DependGraph.nodeIt, List.nodup_reverse, List.nodup_range]
  obtain ⟨h1, h2, h3, h4, h5⟩ := closeFold_spec (ckt.length + 1) _ hnd
    { ((stateAfter nop ckt nqubits ckt.length).G.addNode nop) with t := ckt.length + 1 }
  have hI : Init nop ckt nqubits =
      closeLoop (ckt.length + 1)
        { ((stateAfter nop ckt nqubits ckt.length).G.addNode nop) with t := ckt.length + 1 } := by
    simp only [Init, hst, i1]
  rw [hI]
  simp only [closeLoop]
  rw [h1, h2, h3, h4, h5]
  refine ⟨by simp [DependGraph.addNode, i1], by simp [DependGraph.addNode, i2],
    by simp [DependGraph.addNode, i3], rfl, ?_⟩
  simp only [DependGraph.addNode, i4, DependGraph.nodeIt, i1, closeArcs]
  congr 2
  rw [List.range_succ (ckt.length + 1), List.reverse_append]
  simp only [List.reverse_cons, List.reverse_nil, List.nil_append, List.singleton_append]
  rw [List.filter_cons_of_neg (by simp)]
  apply List.filter_congr
  intro n hn
  have : n < ckt.length + 1 := by simpa using hn
  have hne : n ≠ ckt.length + 1 := by omega
  simp [hne]

/-! ## Arcs of the built graph -/

theorem mem_bodyArcs {ckt : circuit} {n : Nat} {a : Arc} :
    a ∈ bodyArcs ckt n ↔ ∃ k, k < n ∧ a ∈ insArcs ckt k := by
  simp [bodyArcs, List.mem_flatMap]

/-- The arcs created for the instruction at position `k`, one by one. -/
theorem mem_insArcs {ckt : circuit} {k : Nat} {a : Arc} :
    a ∈ insArcs ckt k ↔
      (∃ q, q ∈ (opsOf ckt k).dropLast ∧ a = prodArc ckt k q DepTypes.RAW) ∨
      (∃ q, (opsOf ckt k).getLast? = some q ∧
        (a = prodArc ckt k q DepTypes.WAW ∨
          ∃ r, (r ∈ readersBefore ckt k q ∨ (r = k + 1 ∧ q ∈ (opsOf ckt k).dropLast)) ∧
            a = warArc ckt k q r)) := by
  unfold insArcs
  cases hl : (opsOf ckt k).getLast? with
  | none =>
    simp only [List.append_nil, List.mem_map]
    constructor
    · rintro ⟨q, hq, rfl⟩
      exact Or.inl ⟨q, hq, rfl⟩
    · rintro (⟨q, hq, rfl⟩ | ⟨q, hq, _⟩)
      · exact ⟨q, hq, rfl⟩
      · cases hq
  | some q0 =>
    simp only [List.mem_append, List.mem_map, List.mem_cons, List.mem_replicate]
    constructor
    · rintro (⟨q, hq, rfl⟩ | rfl | ⟨r, hr, rfl⟩)
      · exact Or.inl ⟨q, hq, rfl⟩
      · exact Or.inr ⟨q0, rfl, Or.inl rfl⟩
      · refine Or.inr ⟨q0, rfl, Or.inr ⟨r, ?_, rfl⟩⟩
        rcases hr with h | ⟨hc, rfl⟩
        · exact Or.inl h
        · exact Or.inr ⟨rfl, List.count_pos_iff.mp (Nat.pos_of_ne_zero hc)⟩
    · rintro (⟨q, hq, rfl⟩ | ⟨q, hq, h⟩)
      · exact Or.inl ⟨q, hq, rfl⟩
      · cases hq
        rcases h with rfl | ⟨r, hr, rfl⟩
        · exact Or.inr (Or.inl rfl)
        · refine Or.inr (Or.inr ⟨r, ?_, rfl⟩)
          rcases hr with h | ⟨rfl, hd⟩
          · exact Or.inl h
          · exact Or.inr ⟨Nat.pos_iff_ne_zero.mp (List.count_pos_iff.mpr hd), rfl⟩

theorem insArcs_target {ckt : circuit} {k : Nat} {a : Arc} (h : a ∈ insArcs ckt k) :
    a.target = k + 1 := by
  rcases mem_insArcs.mp h with ⟨q, _, rfl⟩ | ⟨q, _, rfl | ⟨r, _, rfl⟩⟩ <;> rfl

theorem mem_closeArcs {A : List Arc} {t : Nat} {a : Arc} :
    a ∈ closeArcs A t ↔
      ∃ n, n < t ∧ (∀ b ∈ A, b.source ≠ n) ∧ a = ⟨n, t, 1, 0, DepTypes.RAW⟩ := by
  simp only [closeArcs, List.mem_map, List.mem_filter, List.mem_reverse, List.mem_range,
    List.length_eq_zero, decide_eq_true_eq, List.filter_eq_nil_iff]
  constructor
  · rintro ⟨n, ⟨hn, hA⟩, rfl⟩
    exact ⟨n, hn, fun b hb => hA b hb, rfl⟩
  · rintro ⟨n, hn, hA, rfl⟩
    exact ⟨n, ⟨hn, fun b hb => hA b hb⟩, rfl⟩

theorem opsOf_mem {ckt : circuit} {k : Nat} (h : opsOf ckt k ≠ []) :
    ∃ ins, ins ∈ ckt ∧ ckt[k]? = some ins ∧ opsOf ckt k = ins.operands := by
  unfold opsOf at h ⊢
  cases hg : ckt[k]? with
  | none => simp [hg] at h
  | some ins => exact ⟨ins, List.getElem?_mem hg, rfl, rfl⟩

/-- The sources of the WAR arcs with cause `q` that enter the node of the
instruction at position `k`, in the order of creation of the arcs. -/
theorem WAR_sources (nop : gate) (ckt : circuit) (nqubits : Nat)
    (hr : InRange ckt nqubits) (k q : Nat) (hk : k < ckt.length)
    (hq : (opsOf ckt k).getLast? = some q) (a : Arc) :
    (a ∈ (Init nop ckt nqubits).arcs ∧ a.target = k + 1 ∧ a.depType = DepTypes.WAR) ↔
      ∃ r, (r ∈ readersBefore ckt k q ∨ (r = k + 1 ∧ q ∈ (opsOf ckt k).dropLast)) ∧
        a = warArc ckt k q r := by
  rw [(Init_spec nop ckt nqubits hr).2.2.2.2, List.mem_append]
  constructor
  · rintro ⟨ha | ha, ht, hd⟩
    · obtain ⟨j, hj, haj⟩ := mem_bodyArcs.mp ha
      have hjk : j = k := by
        have := insArcs_target haj
        omega
      subst hjk
      rcases mem_insArcs.mp haj with ⟨q', _, rfl⟩ | ⟨q', hq', rfl | ⟨r, hrd, rfl⟩⟩
      · simp [prodArc] at hd
      · simp [prodArc] at hd
      · rw [hq] at hq'
        cases hq'
        exact ⟨r, hrd, rfl⟩
    · obtain ⟨n, _, _, rfl⟩ := mem_closeArcs.mp ha
      simp at hd
  · rintro ⟨r, hrd, rfl⟩
    refine ⟨Or.inl (mem_bodyArcs.mpr ⟨k, hk, mem_insArcs.mpr (Or.inr ⟨q, hq, Or.inr ⟨r, hrd, rfl⟩⟩)⟩),
      rfl, rfl⟩

/-- When no instruction reads its own written operand, every arc of the built
graph leads from a node to a node created strictly later. -/
theorem Init_arcs_increasing (nop : gate) (ckt : circuit) (nqubits : Nat)
    (hr : InRange ckt nqubits) (hl : LastNotRead ckt) :
    ∀ a ∈ (Init nop ckt nqubits).arcs, a.source < a.target ∧ a.target < ckt.length + 2 := by
  intro a ha
  rw [(Init_spec nop ckt nqubits hr).2.2.2.2, List.mem_append] at ha
  rcases ha with ha | ha
  · obtain ⟨k, hk, hak⟩ := mem_bodyArcs.mp ha
    rcases mem_insArcs.mp hak with ⟨q, _, rfl⟩ | ⟨q, hq, rfl | ⟨r, hrd, rfl⟩⟩
    · have := lastWriter_le ckt k q
      simp only [prodArc]; omega
    · have := lastWriter_le ckt k q
      simp only [prodArc]; omega
    · simp only [warArc]
      rcases hrd with h | ⟨_, hd⟩
      · obtain ⟨j, hj, rfl, _⟩ := mem_readersBefore.mp h
        omega
      · exfalso
        have hne : opsOf ckt k ≠ [] := by
          intro h0; rw [h0] at hq; cases hq
        obtain ⟨ins, hins, _, hops⟩ := opsOf_mem hne
        rw [hops] at hq hd
        exact hl ins hins q hq hd
  · obtain ⟨n, hn, _, rfl⟩ := mem_closeArcs.mp ha
    simp only; omega

theorem isWalk_increasing (g : DependGraph) (hg : ∀ a ∈ g.arcs, a.source < a.target)
    (p : List Arc) (u v : Nat) (h : isWalk g u p v) : (p = [] ∧ u = v) ∨ u < v := by
  induction p generalizing u with
  | nil => exact Or.inl ⟨rfl, h⟩
  | cons a p ih =>
    obtain ⟨ha, hs, hw⟩ := h
    have hlt := hg a ha
    right
    rcases ih a.target hw with ⟨_, he⟩ | hlt'
    · omega
    · omega

/-- A graph whose arcs all lead to a larger node id has no directed cycle. -/
theorem no_cycle_of_increasing (g : DependGraph) (hg : ∀ a ∈ g.arcs, a.source < a.target) :
    ¬ hasCycle g := by
  rintro ⟨u, p, hp, hw⟩
  rcases isWalk_increasing g hg p u u hw with ⟨h, _⟩ | h
  · exact hp h
  · omega

/-- An instruction that has its last operand at an earlier position as well
gets a WAR arc from its own node to itself. -/
theorem Init_cycle_of_repeated_last (nop : gate) (ckt : circuit) (nqubits : Nat)
    (hr : InRange ckt nqubits) (ins : gate) (hins : ins ∈ ckt) (q : Nat)
    (hq : ins.operands.getLast? = some q) (hd : q ∈ ins.operands.dropLast) :
    hasCycle (Init nop ckt nqubits) := by
  obtain ⟨k, hk⟩ := List.mem_iff_getElem?.mp hins
  have hlen : k < ckt.length := by
    by_contra h
    rw [List.getElem?_eq_none (by omega)] at hk
    cases hk
  have h := (WAR_sources nop ckt nqubits hr k q hlen (by rw [opsOf_eq hk]; exact hq)
    (warArc ckt k q (k + 1))).mpr ⟨k + 1, Or.inr ⟨rfl, by rw [opsOf_eq hk]; exact hd⟩, rfl⟩
  exact ⟨k + 1, [warArc ckt k q (k + 1)], by simp, h.1, rfl, rfl⟩

/-! ## C1: acyclicity -/

/-- C1, counterexample: one instruction whose two operands are the same index
is within range and has a non-empty operand list, yet `Init` gives its node a
WAR arc to itself, a cycle of length one. -/
theorem Init_cycle_on_repeated_operand :
    NonEmptyOps [⟨[0, 0], 1, "g"⟩] ∧ InRange [⟨[0, 0], 1, "g"⟩] 1 ∧
      hasCycle (Init ⟨[], 0, "nop"⟩ [⟨[0, 0], 1, "g"⟩] 1) := by
  refine ⟨by simp [NonEmptyOps], by simp [InRange], 1, [⟨1, 1, 1, 0, DepTypes.WAR⟩], by simp, ?_⟩
  exact ⟨by decide, rfl, rfl⟩

/-- C1, amended: for every `nQubits` and every instruction sequence with
non-empty operand lists and operand indices below `nQubits` in which no
instruction has its last operand index at an earlier operand position as well,
the graph built by `Init` contains no directed cycle (cycles of length one
included). -/
theorem Init_acyclic (nop : gate) (ckt : circuit) (nqubits : Nat)
    (_hne : NonEmptyOps ckt) (hr : InRange ckt nqubits) (hl : LastNotRead ckt) :
    ¬ hasCycle (Init nop ckt nqubits) :=
  no_cycle_of_increasing _ (fun a ha => (Init_arcs_increasing nop ckt nqubits hr hl a ha).1)

/-- C1, the amended statement applied to a sequence of three instructions. -/
theorem Init_acyclic_witness :
    NonEmptyOps [⟨[0], 2, "a"⟩, ⟨[0, 1], 1, "b"⟩, ⟨[1], 1, "c"⟩] ∧
      InRange [⟨[0], 2, "a"⟩, ⟨[0, 1], 1, "b"⟩, ⟨[1], 1, "c"⟩] 2 ∧
      LastNotRead [⟨[0], 2, "a"⟩, ⟨[0, 1], 1, "b"⟩, ⟨[1], 1, "c"⟩] ∧
      ¬ hasCycle (Init ⟨[], 0, "nop"⟩ [⟨[0], 2, "a"⟩, ⟨[0, 1], 1, "b"⟩, ⟨[1], 1, "c"⟩] 2) :=
  ⟨by simp [NonEmptyOps], by simp [InRange], by simp [LastNotRead],
    Init_acyclic _ _ _ (by simp [NonEmptyOps]) (by simp [InRange]) (by simp [LastNotRead])⟩

/-! ## C2 - C5: the two schedulers -/

/-- C2, the code at the failing input: three writers `A` (latency 2), `B`
(latency 10) and `C` (latency 2) of three different qubits, then `V`, which
reads the first two qubits and writes the third.  The graph has the arc `B -> V`
of weight 10 and `ScheduleASAP` puts `B` in cycle 1, but `V` in cycle 3: the
loop compares the running value with the cycle of the source, not with the
cycle of the source plus the weight, so the arc is skipped. -/
theorem ScheduleASAP_skips_heavier_arc :
    (⟨2, 4, 10, 1, DepTypes.RAW⟩ : Arc) ∈
        (Init ⟨[], 0, "nop"⟩
          [⟨[0], 2, "A"⟩, ⟨[1], 10, "B"⟩, ⟨[2], 2, "C"⟩, ⟨[0, 1, 2], 1, "V"⟩] 3).arcs ∧
      (ScheduleASAP
        (Init ⟨[], 0, "nop"⟩
          [⟨[0], 2, "A"⟩, ⟨[1], 10, "B"⟩, ⟨[2], 2, "C"⟩, ⟨[0, 1, 2], 1, "V"⟩] 3)
        (fun _ => 0) []).1 2 = 1 ∧
      (ScheduleASAP
        (Init ⟨[], 0, "nop"⟩
          [⟨[0], 2, "A"⟩, ⟨[1], 10, "B"⟩, ⟨[2], 2, "C"⟩, ⟨[0, 1, 2], 1, "V"⟩] 3)
        (fun _ => 0) []).1 4 = 3 := by
  decide

/-- C3, the code at the failing input: `A` (latency 3) writes qubit 0, which
`C1`, `B` and `C2` read; `D` rewrites the qubit written by `B`.  The graph has
the arc `A -> B` of weight 3 and `ScheduleALAP` gives `B` the value
`MAX_CYCLE - 2`, but `A` the value `MAX_CYCLE - 4`, which is larger than
`MAX_CYCLE - 2 - 3`: the loop compares the running value with the cycle of the
target, not with the cycle of the target minus the weight. -/
theorem ScheduleALAP_skips_tighter_arc :
    (⟨1, 3, 3, 0, DepTypes.RAW⟩ : Arc) ∈
        (Init ⟨[], 0, "nop"⟩
          [⟨[0], 3, "A"⟩, ⟨[0, 2], 1, "C1"⟩, ⟨[0, 1], 1, "B"⟩, ⟨[0, 3], 1, "C2"⟩,
            ⟨[1], 1, "D"⟩] 4).arcs ∧
      (ScheduleALAP
        (Init ⟨[], 0, "nop"⟩
          [⟨[0], 3, "A"⟩, ⟨[0, 2], 1, "C1"⟩, ⟨[0, 1], 1, "B"⟩, ⟨[0, 3], 1, "C2"⟩,
            ⟨[1], 1, "D"⟩] 4)
        (fun _ => 0) []).1 3 = MAX_CYCLE - 2 ∧
      (ScheduleALAP
        (Init ⟨[], 0, "nop"⟩
          [⟨[0], 3, "A"⟩, ⟨[0, 2], 1, "C1"⟩, ⟨[0, 1], 1, "B"⟩, ⟨[0, 3], 1, "C2"⟩,
            ⟨[1], 1, "D"⟩] 4)
        (fun _ => 0) []).1 1 = MAX_CYCLE - 4 := by
  decide

/-- C4, the code at the failing input: on the graph of five instructions in
which `A` (latency 3) feeds `B`, `ScheduleASAP` puts `B` (node 3) in cycle 4
while the cycle reported for `B` from the map of `ScheduleALAP` is 3, so the
slack of `B` is negative. -/
theorem reportedALAP_below_ASAP :
    (ScheduleASAP
        (Init ⟨[], 0, "nop"⟩
          [⟨[0], 3, "A"⟩, ⟨[0, 2], 1, "C1"⟩, ⟨[0, 1], 1, "B"⟩, ⟨[0, 3], 1, "C2"⟩,
            ⟨[1], 1, "D"⟩] 4)
        (fun _ => 0) []).1 3 = 4 ∧
      reportedALAP
        (ScheduleALAP
          (Init ⟨[], 0, "nop"⟩
            [⟨[0], 3, "A"⟩, ⟨[0, 2], 1, "C1"⟩, ⟨[0, 1], 1, "B"⟩, ⟨[0, 3], 1, "C2"⟩,
              ⟨[1], 1, "D"⟩] 4)
          (fun _ => 0) []).1
        (ScheduleALAP
          (Init ⟨[], 0, "nop"⟩
            [⟨[0], 3, "A"⟩, ⟨[0, 2], 1, "C1"⟩, ⟨[0, 1], 1, "B"⟩, ⟨[0, 3], 1, "C2"⟩,
              ⟨[1], 1, "D"⟩] 4)
          (fun _ => 0) []).2 3 = 3 := by
  decide

/-- C5, the code at the failing input: for the four instructions `A`, `B`, `C`,
`V` the value `TotalCycles` taken from the map of `ScheduleALAP` is 12, which is
also the cycle reported for Exit (node 5), while `ScheduleASAP` puts Exit in
cycle 4. -/
theorem TotalCycles_differs_from_ASAP_length :
    TotalCycles
        (ScheduleALAP
          (Init ⟨[], 0, "nop"⟩
            [⟨[0], 2, "A"⟩, ⟨[1], 10, "B"⟩, ⟨[2], 2, "C"⟩, ⟨[0, 1, 2], 1, "V"⟩] 3)
          (fun _ => 0) []).1
        (ScheduleALAP
          (Init ⟨[], 0, "nop"⟩
            [⟨[0], 2, "A"⟩, ⟨[1], 10, "B"⟩, ⟨[2], 2, "C"⟩, ⟨[0, 1, 2], 1, "V"⟩] 3)
          (fun _ => 0) []).2 = 12 ∧
      reportedALAP
        (ScheduleALAP
          (Init ⟨[], 0, "nop"⟩
            [⟨[0], 2, "A"⟩, ⟨[1], 10, "B"⟩, ⟨[2], 2, "C"⟩, ⟨[0, 1, 2], 1, "V"⟩] 3)
          (fun _ => 0) []).1
        (ScheduleALAP
          (Init ⟨[], 0, "nop"⟩
            [⟨[0], 2, "A"⟩, ⟨[1], 10, "B"⟩, ⟨[2], 2, "C"⟩, ⟨[0, 1, 2], 1, "V"⟩] 3)
          (fun _ => 0) []).2 5 = 12 ∧
      (ScheduleASAP
        (Init ⟨[], 0, "nop"⟩
          [⟨[0], 2, "A"⟩, ⟨[1], 10, "B"⟩, ⟨[2], 2, "C"⟩, ⟨[0, 1, 2], 1, "V"⟩] 3)
        (fun _ => 0) []).1 5 = 4 := by
  decide

/-! ## C6: the order returned by `TopologicalSort` -/

/-- Read from its back to its front, the vector filled by `TopologicalSort`
lists the node ids in ascending order. -/
theorem TopologicalSort_reverse (g : DependGraph) :
    (TopologicalSort g []).reverse = List.range g.nodeNum := by
  simp [TopologicalSort, DependGraph.nodeIt]

/-- A graph with nodes `0 .. n + 1`, Entry `0`, Exit `n + 1` and arcs that all
lead to a larger node id is topologically ordered by the ascending ids. -/
theorem range_isTopologicalOrder (g : DependGraph) (n : Nat) (hn : g.nodeNum = n + 2)
    (hs : g.s = 0) (ht : g.t = n + 1) (hg : ∀ a ∈ g.arcs, a.source < a.target) :
    IsTopologicalOrder g (List.range g.nodeNum) := by
  refine ⟨?_, ?_, ?_, ?_, ?_⟩
  · intro v hv
    exact List.count_eq_one_of_mem (List.nodup_range _) (List.mem_range.mpr hv)
  · intro v hv
    exact List.mem_range.mp hv
  · rw [hn, hs, List.range_succ_eq_map]
    rfl
  · rw [hn, ht, List.range_succ]
    exact List.getLast?_concat _
  · intro a ha i j hi hj
    have h1 : i = a.source := by
      rcases Nat.lt_or_ge i g.nodeNum with h | h
      · rw [List.getElem?_range h] at hi
        exact Option.some.inj hi
      · rw [List.getElem?_eq_none (by simpa using h)] at hi
        cases hi
    have h2 : j = a.target := by
      rcases Nat.lt_or_ge j g.nodeNum with h | h
      · rw [List.getElem?_range h] at hj
        exact Option.some.inj hj
      · rw [List.getElem?_eq_none (by simpa using h)] at hj
        cases hj
    have := hg a ha
    omega

/-- C6, counterexample: for one instruction whose two operands are the same
index the graph has an arc from node 1 to node 1, and the sequence returned by
`TopologicalSort`, read from the back, places node 1 once, hence not before
itself. -/
theorem TopologicalSort_fails_on_repeated_operand :
    NonEmptyOps [⟨[0, 0], 1, "g"⟩] ∧ InRange [⟨[0, 0], 1, "g"⟩] 1 ∧
      ¬ IsTopologicalOrder (Init ⟨[], 0, "nop"⟩ [⟨[0, 0], 1, "g"⟩] 1)
        (TopologicalSort (Init ⟨[], 0, "nop"⟩ [⟨[0, 0], 1, "g"⟩] 1) []).reverse := by
  refine ⟨by simp [NonEmptyOps], by simp [InRange], ?_⟩
  intro h
  have h1 := h.2.2.2.2 ⟨1, 1, 1, 0, DepTypes.WAR⟩ (by decide) 1 1 (by decide) (by decide)
  omega

/-- C6, amended: for every sequence with non-empty operand lists and operand
indices below `nQubits` in which no instruction has its last operand index at
an earlier operand position as well, the vector that `TopologicalSort` fills
from an empty one, read from its back to its front, contains every node of the
graph exactly once, starts with Entry, ends with Exit and places `u` before `v`
for every arc `u -> v`. -/
theorem TopologicalSort_isTopologicalOrder (nop : gate) (ckt : circuit) (nqubits : Nat)
    (_hne : NonEmptyOps ckt) (hr : InRange ckt nqubits) (hl : LastNotRead ckt) :
    IsTopologicalOrder (Init nop ckt nqubits)
      (TopologicalSort (Init nop ckt nqubits) []).reverse := by
  obtain ⟨h1, -, h3, h4, -⟩ := Init_spec nop ckt nqubits hr
  rw [TopologicalSort_reverse]
  exact range_isTopologicalOrder _ ckt.length h1 h3 h4
    (fun a ha => (Init_arcs_increasing nop ckt nqubits hr hl a ha).1)

/-- C6, the amended statement applied to a sequence of two instructions. -/
theorem TopologicalSort_isTopologicalOrder_witness :
    NonEmptyOps [⟨[0], 2, "a"⟩, ⟨[0, 1], 1, "b"⟩] ∧
      InRange [⟨[0], 2, "a"⟩, ⟨[0, 1], 1, "b"⟩] 2 ∧
      LastNotRead [⟨[0], 2, "a"⟩, ⟨[0, 1], 1, "b"⟩] ∧
      IsTopologicalOrder (Init ⟨[], 0, "nop"⟩ [⟨[0], 2, "a"⟩, ⟨[0, 1], 1, "b"⟩] 2)
        (TopologicalSort (Init ⟨[], 0, "nop"⟩ [⟨[0], 2, "a"⟩, ⟨[0, 1], 1, "b"⟩] 2) []).reverse :=
  ⟨by simp [NonEmptyOps], by simp [InRange], by simp [LastNotRead],
    TopologicalSort_isTopologicalOrder _ _ _ (by simp [NonEmptyOps]) (by simp [InRange])
      (by simp [LastNotRead])⟩

/-! ## C7: one RAW or WAW arc per operand position -/

/-- The definition `lastWriter` picks the latest earlier instruction whose last
operand is `q`, and Entry when there is none. -/
theorem lastWriter_spec (ckt : circuit) (k q : Nat) :
    (lastWriter ckt k q = 0 ∧ ∀ j, j < k → (opsOf ckt j).getLast? ≠ some q) ∨
    (∃ j, j < k ∧ lastWriter ckt k q = j + 1 ∧ (opsOf ckt j).getLast? = some q ∧
      ∀ m, j < m → m < k → (opsOf ckt m).getLast? ≠ some q) := by
  induction k with
  | zero => exact Or.inl ⟨rfl, fun j hj => absurd hj (Nat.not_lt_zero j)⟩
  | succ k ih =>
    by_cases h : (opsOf ckt k).getLast? = some q
    · right
      refine ⟨k, Nat.lt_succ_self k, by simp [lastWriter, h], h, ?_⟩
      intro m h1 h2; omega
    · have hlw : lastWriter ckt (k + 1) q = lastWriter ckt k q := by simp [lastWriter, h]
      rcases ih with ⟨h0, hall⟩ | ⟨j, hj, hjw, hjq, hall⟩
      · left
        refine ⟨by rw [hlw, h0], ?_⟩
        intro j hj
        rcases Nat.lt_succ_iff_lt_or_eq.mp hj with h' | rfl
        · exact hall j h'
        · exact h
      · right
        refine ⟨j, by omega, by rw [hlw, hjw], hjq, ?_⟩
        intro m h1 h2
        rcases Nat.lt_succ_iff_lt_or_eq.mp h2 with h' | rfl
        · exact hall m h1 h'
        · exact h

/-- The latency of an instruction node is the latency of an instruction of the
sequence. -/
theorem instrLatency_mem (ckt : circuit) (n : Nat) (h1 : 1 ≤ n) (h2 : n ≤ ckt.length) :
    ∃ ins, ins ∈ ckt ∧ instrLatency ckt n = ins.latency := by
  have hlt : n - 1 < ckt.length := by omega
  refine ⟨ckt[n - 1], List.getElem_mem hlt, ?_⟩
  simp [instrLatency, List.getElem?_eq_getElem hlt]

/-- The `int` map at work inside `Init`: the instruction `a` has the latency
`2 ^ 32 + 5`, and the arc from `a` to `b` has the weight 5. -/
theorem Init_weight_of_wide_latency :
    (Init ⟨[], 0, "nop"⟩ [⟨[0], 4294967301, "a"⟩, ⟨[0], 1, "b"⟩] 1).arcs =
      [⟨0, 1, 1, 0, DepTypes.WAW⟩, ⟨1, 2, 5, 0, DepTypes.WAW⟩, ⟨2, 3, 1, 0, DepTypes.RAW⟩] := by
  decide

/-! ## C8 - C10: write-after-read arcs -/

/-- C8, the code at the failing input: `R` reads qubit 0, `W1` writes it,
`W2` writes it again.  The only reader of qubit 0, `R` (node 1), comes before
the earlier write `W1` (node 2); the WAR arcs with cause 0 that enter `W2`
(node 3) nevertheless start at `R`: the list `LastReaders[0]` is never
emptied. -/
theorem WAR_arc_from_reader_before_earlier_write :
    ((Init ⟨[], 0, "nop"⟩ [⟨[0, 1], 1, "R"⟩, ⟨[0], 1, "W1"⟩, ⟨[0], 1, "W2"⟩] 2).arcs.filter
        (fun a => a.target = 3 ∧ a.depType = DepTypes.WAR ∧ a.cause = 0)).map
      (fun a => a.source) = [1] := by
  decide

/-- C9, the code at the failing input: `R` (latency 5) reads qubit 0, which no
instruction has written before, and `W` writes it.  The WAR arc `R -> W` has
weight 1, not the latency 5 of the reader: the weight test of the WAR arc looks
at the last writer (Entry here) instead of at the source of the arc. -/
theorem WAR_weight_one_after_Entry :
    (Init ⟨[], 0, "nop"⟩ [⟨[0, 1], 5, "R"⟩, ⟨[0], 1, "W"⟩] 2).arcs.filter
        (fun a => a.depType = DepTypes.WAR) = [⟨1, 2, 1, 0, DepTypes.WAR⟩] := by
  decide

/-- C10: for every sequence with non-empty operand lists and operand indices
below `nQubits`, every instruction `R` (position `i`) with `q` at a non-last
operand position and every later instruction `W` (position `j`) whose last
operand is `q`, with no instruction strictly between them having `q` as its
last operand, the built graph contains a WAR arc from the node of `R` to the
node of `W` with cause `q`. -/
theorem Init_WAR_arc_exists (nop : gate) (ckt : circuit) (nqubits : Nat)
    (_hne : NonEmptyOps ckt) (hr : InRange ckt nqubits) (i j q : Nat) (R W : gate)
    (hR : ckt[i]? = some R) (hW : ckt[j]? = some W) (hij : i < j)
    (hread : q ∈ R.operands.dropLast) (hwrite : W.operands.getLast? = some q)
    (_hbetween : ∀ m X, i < m → m < j → ckt[m]? = some X → X.operands.getLast? ≠ some q) :
    ∃ a ∈ (Init nop ckt nqubits).arcs,
      a.source = i + 1 ∧ a.target = j + 1 ∧ a.depType = DepTypes.WAR ∧ a.cause = q := by
  have hj : j < ckt.length := by
    by_contra h
    rw [List.getElem?_eq_none (by omega)] at hW
    cases hW
  have hmem : i + 1 ∈ readersBefore ckt j q :=
    mem_readersBefore.mpr ⟨i, hij, rfl, by rw [opsOf_eq hR]; exact hread⟩
  have h := (WAR_sources nop ckt nqubits hr j q hj (by rw [opsOf_eq hW]; exact hwrite)
    (warArc ckt j q (i + 1))).mpr ⟨i + 1, Or.inl hmem, rfl⟩
  exact ⟨warArc ckt j q (i + 1), h.1, rfl, rfl, rfl, rfl⟩

/-- C10 applied to a reader and a later writer of qubit 0 with an instruction
between them. -/
theorem Init_WAR_arc_exists_witness :
    NonEmptyOps [⟨[0, 1], 2, "R"⟩, ⟨[1], 1, "X"⟩, ⟨[0], 1, "W"⟩] ∧
      InRange [⟨[0, 1], 2, "R"⟩, ⟨[1], 1, "X"⟩, ⟨[0], 1, "W"⟩] 2 ∧
      ∃ a ∈ (Init ⟨[], 0, "nop"⟩ [⟨[0, 1], 2, "R"⟩, ⟨[1], 1, "X"⟩, ⟨[0], 1, "W"⟩] 2).arcs,
        a.source = 0 + 1 ∧ a.target = 2 + 1 ∧ a.depType = DepTypes.WAR ∧ a.cause = 0 :=
  ⟨by simp [NonEmptyOps], by simp [InRange],
    Init_WAR_arc_exists ⟨[], 0, "nop"⟩ [⟨[0, 1], 2, "R"⟩, ⟨[1], 1, "X"⟩, ⟨[0], 1, "W"⟩] 2
      (by simp [NonEmptyOps]) (by simp [InRange]) 0 2 0 ⟨[0, 1], 2, "R"⟩ ⟨[0], 1, "W"⟩
      rfl rfl (by decide) (by decide) rfl
      (by
        intro m X h1 h2 hX
        have hm : m = 1 := by omega
        subst hm
        cases hX
        decide)⟩

/-! ## C11 - C13: the two ends of the graph -/

/-- The arcs of the built graph: those of the instructions and the closing
arcs. -/
theorem mem_Init_arcs (nop : gate) (ckt : circuit) (nqubits : Nat) (hr : InRange ckt nqubits)
    (a : Arc) :
    a ∈ (Init nop ckt nqubits).arcs ↔
      (∃ k, k < ckt.length ∧ a ∈ insArcs ckt k) ∨
      (∃ n, n < ckt.length + 1 ∧ (∀ b ∈ bodyArcs ckt ckt.length, b.source ≠ n) ∧
        a = ⟨n, ckt.length + 1, 1, 0, DepTypes.RAW⟩) := by
  rw [(Init_spec nop ckt nqubits hr).2.2.2.2, List.mem_append, mem_bodyArcs, mem_closeArcs]

theorem insArcs_source_le {ckt : circuit} {k : Nat} {a : Arc} (h : a ∈ insArcs ckt k) :
    a.source ≤ k + 1 := by
  rcases mem_insArcs.mp h with ⟨q, _, rfl⟩ | ⟨q, _, rfl | ⟨r, hrd, rfl⟩⟩
  · have := lastWriter_le ckt k q
    simp only [prodArc]; omega
  · have := lastWriter_le ckt k q
    simp only [prodArc]; omega
  · simp only [warArc]
    rcases hrd with h | ⟨rfl, _⟩
    · obtain ⟨j, hj, rfl, _⟩ := mem_readersBefore.mp h
      omega
    · exact le_refl _

/-- Every node other than Exit has a leaving arc: one of the arcs of the
instructions (its target is an instruction node then), or else the closing
arc. -/
theorem Init_out_arc (nop : gate) (ckt : circuit) (nqubits : Nat) (hr : InRange ckt nqubits)
    (v : Nat) (hv : v < ckt.length + 1) :
    (∃ a ∈ (Init nop ckt nqubits).arcs, a.source = v ∧ a.target < ckt.length + 1) ∨
      (⟨v, ckt.length + 1, 1, 0, DepTypes.RAW⟩ : Arc) ∈ (Init nop ckt nqubits).arcs := by
  by_cases h : ∃ b ∈ bodyArcs ckt ckt.length, b.source = v
  · obtain ⟨b, hb, hbv⟩ := h
    left
    obtain ⟨k, hk, hbk⟩ := mem_bodyArcs.mp hb
    refine ⟨b, (mem_Init_arcs nop ckt nqubits hr b).mpr (Or.inl ⟨k, hk, hbk⟩), hbv, ?_⟩
    rw [insArcs_target hbk]; omega
  · right
    refine (mem_Init_arcs nop ckt nqubits hr _).mpr (Or.inr ⟨v, hv, ?_, rfl⟩)
    intro b hb hbv
    exact h ⟨b, hb, hbv⟩

/-- C12: for every instruction sequence with operand indices below `nQubits`
(any operand lists, empty or with repetitions) the built graph has the nodes
`0 .. n + 1` with the dummy gate on the first node, Entry, and on the last
node, Exit, and the instructions on the nodes between; no arc has Entry as its
target, no arc has Exit as its source, and every node other than Exit has
out-degree at least 1. -/
theorem Init_sentinels (nop : gate) (ckt : circuit) (nqubits : Nat) (hr : InRange ckt nqubits) :
    (Init nop ckt nqubits).nodeNum = ckt.length + 2 ∧
    (Init nop ckt nqubits).instruction = nop :: ckt ++ [nop] ∧
    (Init nop ckt nqubits).s = 0 ∧
    (Init nop ckt nqubits).t = ckt.length + 1 ∧
    (∀ a ∈ (Init nop ckt nqubits).arcs, a.target ≠ (Init nop ckt nqubits).s) ∧
    (∀ a ∈ (Init nop ckt nqubits).arcs, a.source ≠ (Init nop ckt nqubits).t) ∧
    (∀ v, v < (Init nop ckt nqubits).nodeNum → v ≠ (Init nop ckt nqubits).t →
      1 ≤ (Init nop ckt nqubits).outDeg v) := by
  obtain ⟨h1, h2, h3, h4, -⟩ := Init_spec nop ckt nqubits hr
  refine ⟨h1, h2, h3, h4, ?_, ?_, ?_⟩
  · intro a ha
    rw [h3]
    rcases (mem_Init_arcs nop ckt nqubits hr a).mp ha with ⟨k, _, hk⟩ | ⟨n, _, _, rfl⟩
    · rw [insArcs_target hk]; omega
    · simp
  · intro a ha
    rw [h4]
    rcases (mem_Init_arcs nop ckt nqubits hr a).mp ha with ⟨k, hk, hak⟩ | ⟨n, hn, _, rfl⟩
    · have := insArcs_source_le hak
      omega
    · simp only; omega
  · intro v hv hvt
    rw [h1] at hv
    rw [h4] at hvt
    have hv' : v < ckt.length + 1 := by omega
    have hex : ∃ a ∈ (Init nop ckt nqubits).arcs, a.source = v := by
      rcases Init_out_arc nop ckt nqubits hr v hv' with ⟨a, ha, hs, _⟩ | h
      · exact ⟨a, ha, hs⟩
      · exact ⟨_, h, rfl⟩
    obtain ⟨a, ha, hs⟩ := hex
    have hmem : a ∈ (Init nop ckt nqubits).arcs.filter (fun a => a.source = v) := by
      rw [List.mem_filter]
      exact ⟨ha, by simpa using hs⟩
    exact List.length_pos_of_mem hmem

/-- C12 applied to a sequence with an instruction without operands and an
instruction that repeats an operand. -/
theorem Init_sentinels_witness :
    InRange [⟨[], 1, "a"⟩, ⟨[0, 0], 1, "b"⟩] 1 ∧
      (Init ⟨[], 0, "nop"⟩ [⟨[], 1, "a"⟩, ⟨[0, 0], 1, "b"⟩] 1).nodeNum = 2 + 2 ∧
      (∀ a ∈ (Init ⟨[], 0, "nop"⟩ [⟨[], 1, "a"⟩, ⟨[0, 0], 1, "b"⟩] 1).arcs,
        a.target ≠ (Init ⟨[], 0, "nop"⟩ [⟨[], 1, "a"⟩, ⟨[0, 0], 1, "b"⟩] 1).s) :=
  ⟨by simp [InRange],
    (Init_sentinels ⟨[], 0, "nop"⟩ [⟨[], 1, "a"⟩, ⟨[0, 0], 1, "b"⟩] 1 (by simp [InRange])).1,
    (Init_sentinels ⟨[], 0, "nop"⟩ [⟨[], 1, "a"⟩, ⟨[0, 0], 1, "b"⟩] 1
      (by simp [InRange])).2.2.2.2.1⟩

theorem isWalk_append (g : DependGraph) (u v w : Nat) (p p' : List Arc)
    (h : isWalk g u p v) (h' : isWalk g v p' w) : isWalk g u (p ++ p') w := by
  induction p generalizing u with
  | nil =>
    have : u = v := h
    subst this
    exact h'
  | cons a p ih =>
    obtain ⟨ha, hs, hw⟩ := h
    exact ⟨ha, hs, ih a.target hw⟩

/-- A walk between two different nodes ends with an arc into its last node. -/
theorem isWalk_last_arc (g : DependGraph) (p : List Arc) (u v : Nat) (h : isWalk g u p v)
    (huv : u ≠ v) : ∃ a ∈ g.arcs, a.target = v := by
  induction p generalizing u with
  | nil => exact absurd h huv
  | cons a p ih =>
    obtain ⟨ha, _, hw⟩ := h
    by_cases hav : a.target = v
    · exact ⟨a, ha, hav⟩
    · exact ih a.target hw hav

/-- When no instruction reads its own written operand, every node other than
Exit has a walk to Exit. -/
theorem Init_walk_to_Exit (nop : gate) (ckt : circuit) (nqubits : Nat)
    (hr : InRange ckt nqubits) (hl : LastNotRead ckt) (v : Nat) (hv : v < ckt.length + 1) :
    ∃ p, isWalk (Init nop ckt nqubits) v p (ckt.length + 1) := by
  have key : ∀ d v, ckt.length - v = d → v < ckt.length + 1 →
      ∃ p, isWalk (Init nop ckt nqubits) v p (ckt.length + 1) := by
    intro d
    induction d using Nat.strong_induction_on with
    | _ d ih =>
      intro v hd hv
      rcases Init_out_arc nop ckt nqubits hr v hv with ⟨a, ha, hs, ht⟩ | h
      · have hinc := (Init_arcs_increasing nop ckt nqubits hr hl a ha).1
        obtain ⟨p, hp⟩ := ih (ckt.length - a.target) (by omega) a.target rfl ht
        exact ⟨a :: p, ha, hs, hp⟩
      · exact ⟨[⟨v, ckt.length + 1, 1, 0, DepTypes.RAW⟩], h, rfl, rfl⟩
  exact key _ v rfl hv

/-- C11, counterexample: for one instruction whose two operands are the same
index, the node of the instruction has an arc to itself, so the closing loop
adds no arc for it: Exit (node 2) has no entering arc and no walk leads from
the instruction (node 1) to Exit. -/
theorem Exit_unreachable_on_repeated_operand :
    NonEmptyOps [⟨[0, 0], 1, "g"⟩] ∧ InRange [⟨[0, 0], 1, "g"⟩] 1 ∧
      (Init ⟨[], 0, "nop"⟩ [⟨[0, 0], 1, "g"⟩] 1).t = 2 ∧
      (∀ a ∈ (Init ⟨[], 0, "nop"⟩ [⟨[0, 0], 1, "g"⟩] 1).arcs, a.target ≠ 2) ∧
      ¬ ∃ p, isWalk (Init ⟨[], 0, "nop"⟩ [⟨[0, 0], 1, "g"⟩] 1) 1 p 2 := by
  have h : ∀ a ∈ (Init ⟨[], 0, "nop"⟩ [⟨[0, 0], 1, "g"⟩] 1).arcs, a.target ≠ 2 := by decide
  refine ⟨by simp [NonEmptyOps], by simp [InRange], by decide, h, ?_⟩
  rintro ⟨p, hp⟩
  obtain ⟨a, ha, hat⟩ := isWalk_last_arc _ p 1 2 hp (by decide)
  exact h a ha hat

/-- C11, amended: for every sequence with non-empty operand lists and operand
indices below `nQubits` in which no instruction has its last operand index at
an earlier operand position as well, the built graph has a directed path from
every instruction node to the Exit node, and Exit has at least one entering
arc. -/
theorem Init_reaches_Exit (nop : gate) (ckt : circuit) (nqubits : Nat)
    (_hne : NonEmptyOps ckt) (hr : InRange ckt nqubits) (hl : LastNotRead ckt) :
    (∀ k, k < ckt.length →
      ∃ p, isWalk (Init nop ckt nqubits) (k + 1) p (Init nop ckt nqubits).t) ∧
    ∃ a ∈ (Init nop ckt nqubits).arcs, a.target = (Init nop ckt nqubits).t := by
  rw [(Init_spec nop ckt nqubits hr).2.2.2.1]
  refine ⟨fun k hk => Init_walk_to_Exit nop ckt nqubits hr hl (k + 1) (by omega), ?_⟩
  obtain ⟨p, hp⟩ := Init_walk_to_Exit nop ckt nqubits hr hl 0 (by omega)
  exact isWalk_last_arc _ p 0 _ hp (by omega)

/-- C11, the amended statement applied to a sequence of three instructions. -/
theorem Init_reaches_Exit_witness :
    NonEmptyOps [⟨[0], 2, "a"⟩, ⟨[0, 1], 1, "b"⟩, ⟨[1], 1, "c"⟩] ∧
      InRange [⟨[0], 2, "a"⟩, ⟨[0, 1], 1, "b"⟩, ⟨[1], 1, "c"⟩] 2 ∧
      LastNotRead [⟨[0], 2, "a"⟩, ⟨[0, 1], 1, "b"⟩, ⟨[1], 1, "c"⟩] ∧
      (∀ k, k < ([⟨[0], 2, "a"⟩, ⟨[0, 1], 1, "b"⟩, ⟨[1], 1, "c"⟩] : circuit).length →
        ∃ p, isWalk (Init ⟨[], 0, "nop"⟩ [⟨[0], 2, "a"⟩, ⟨[0, 1], 1, "b"⟩, ⟨[1], 1, "c"⟩] 2)
          (k + 1) p
          (Init ⟨[], 0, "nop"⟩ [⟨[0], 2, "a"⟩, ⟨[0, 1], 1, "b"⟩, ⟨[1], 1, "c"⟩] 2).t) ∧
      ∃ a ∈ (Init ⟨[], 0, "nop"⟩ [⟨[0], 2, "a"⟩, ⟨[0, 1], 1, "b"⟩, ⟨[1], 1, "c"⟩] 2).arcs,
        a.target = (Init ⟨[], 0, "nop"⟩ [⟨[0], 2, "a"⟩, ⟨[0, 1], 1, "b"⟩, ⟨[1], 1, "c"⟩] 2).t :=
  ⟨by simp [NonEmptyOps], by simp [InRange], by simp [LastNotRead],
    Init_reaches_Exit _ _ _ (by simp [NonEmptyOps]) (by simp [InRange]) (by simp [LastNotRead])⟩

/-! ## Runs of the two schedulers -/

/-- The run of `ScheduleASAP` from an empty order vector: Entry gets cycle 0,
then the nodes are visited in ascending id order. -/
theorem ScheduleASAP_eq (g : DependGraph) (cycle0 : Nat → Nat) (n : Nat)
    (h : g.nodeNum = n + 1) :
    ScheduleASAP g cycle0 [] =
      ((List.range' 1 n).foldl (fun cycle v => setCycle cycle v (asapNode g cycle v))
          (setCycle cycle0 0 0),
        (List.range (n + 1)).reverse) := by
  have ho : TopologicalSort g [] = (List.range (n + 1)).reverse := by
    simp [TopologicalSort, DependGraph.nodeIt, h]
  have hr : (List.range (n + 1)).reverse.reverse = 0 :: List.range' 1 n := by
    rw [List.reverse_reverse, List.range_eq_range', List.range'_succ]
  unfold ScheduleASAP
  simp only [ho, hr]

/-- The run of `ScheduleALAP` from an empty order vector: Exit gets
`MAX_CYCLE`, then the nodes are visited in descending id order. -/
theorem ScheduleALAP_eq (g : DependGraph) (cycle0 : Nat → Nat) (n : Nat)
    (h : g.nodeNum = n + 1) :
    ScheduleALAP g cycle0 [] =
      ((List.range n).reverse.foldl (fun cycle u => setCycle cycle u (alapNode g cycle u))
          (setCycle cycle0 n MAX_CYCLE),
        n :: (List.range n).reverse) := by
  have ho : TopologicalSort g [] = n :: (List.range n).reverse := by
    simp [TopologicalSort, DependGraph.nodeIt, h, List.range_succ]
  unfold ScheduleALAP
  simp only [ho]

theorem setCycle_same (cycle : Nat → Nat) (n c : Nat) : setCycle cycle n c n = c := by
  simp [setCycle]

theorem setCycle_other (cycle : Nat → Nat) (n c m : Nat) (h : m ≠ n) :
    setCycle cycle n c m = cycle m := by
  simp [setCycle, h]
theorem alapNode_single (g : DependGraph) (cycle : Nat → Nat) (u : Nat) (a : Arc)
    (h : g.outArcIt u = [a]) :
    alapNode g cycle u =
      if MAX_CYCLE ≥ cycle a.target then (cycle a.target + (2 ^ 64 - a.weight % 2 ^ 64)) % 2 ^ 64
      else MAX_CYCLE := by
  unfold alapNode
  rw [h]
  rfl
theorem MAX_CYCLE_minus_one : (MAX_CYCLE + (2 ^ 64 - 1 % 2 ^ 64)) % 2 ^ 64 = MAX_CYCLE - 1 := by
  norm_num [MAX_CYCLE]

/-- The two schedulers on a graph with two nodes and a single arc of weight 1
from node 0 to node 1. -/
theorem schedule_two_nodes (g : DependGraph) (cycle0 : Nat → Nat) (hn : g.nodeNum = 1 + 1)
    (hin : g.inArcIt 1 = [⟨0, 1, 1, 0, DepTypes.RAW⟩])
    (hout : g.outArcIt 0 = [⟨0, 1, 1, 0, DepTypes.RAW⟩]) :
    (ScheduleASAP g cycle0 []).1 0 = 0 ∧
    (ScheduleASAP g cycle0 []).1 1 = 1 ∧
    TotalCycles (ScheduleALAP g cycle0 []).1 (ScheduleALAP g cycle0 []).2 = 1 ∧
    reportedALAP (ScheduleALAP g cycle0 []).1 (ScheduleALAP g cycle0 []).2 0 = 0 ∧
    reportedALAP (ScheduleALAP g cycle0 []).1 (ScheduleALAP g cycle0 []).2 1 = 1 := by
  have has := ScheduleASAP_eq g cycle0 1 hn
  have hal := ScheduleALAP_eq g cycle0 1 hn
  have hr1 : (List.range 1).reverse = [0] := rfl
  have hr2 : List.range' 1 1 = [1] := rfl
  rw [hr1] at hal
  rw [hr2] at has
  have a0 : (ScheduleASAP g cycle0 []).1 0 = 0 := by
    rw [has]
    simp only [List.foldl_cons, List.foldl_nil]
    rw [setCycle_other _ _ _ _ (by decide), setCycle_same]
  have a1 : (ScheduleASAP g cycle0 []).1 1 = 1 := by
    rw [has]
    simp only [List.foldl_cons, List.foldl_nil]
    rw [setCycle_same]
    unfold asapNode
    rw [hin]
    simp only [List.foldl_cons, List.foldl_nil]
    rw [setCycle_same]
    norm_num
  have h1 : (ScheduleALAP g cycle0 []).1 1 = MAX_CYCLE := by
    rw [hal]
    simp only [List.foldl_cons, List.foldl_nil]
    rw [setCycle_other _ _ _ _ (by decide), setCycle_same]
  have h0 : (ScheduleALAP g cycle0 []).1 0 = MAX_CYCLE - 1 := by
    rw [hal]
    simp only [List.foldl_cons, List.foldl_nil]
    rw [setCycle_same, alapNode_single _ _ 0 _ hout]
    simp only []
    rw [setCycle_same, if_pos (le_refl _)]
    exact MAX_CYCLE_minus_one
  have h2 : (ScheduleALAP g cycle0 []).2 = [1, 0] := by
    rw [hal]
  have hT : TotalCycles (ScheduleALAP g cycle0 []).1 (ScheduleALAP g cycle0 []).2 = 1 := by
    rw [h2]
    simp only [TotalCycles, List.reverse_cons, List.reverse_nil, List.nil_append,
      List.singleton_append, h0]
    norm_num [MAX_CYCLE]
  refine ⟨a0, a1, hT, ?_, ?_⟩
  · simp only [reportedALAP, hT, h0]
    norm_num [MAX_CYCLE]
  · simp only [reportedALAP, hT, h1]
    norm_num [MAX_CYCLE]

/-- C13: for every `nQubits`, `Init` on the empty sequence builds the two nodes
Entry (0) and Exit (1) and the single arc Entry -> Exit of weight 1;
`ScheduleASAP` puts Entry in cycle 0 and Exit in cycle 1; from the map of
`ScheduleALAP`, `TotalCycles` is 1 and the reported cycles are 0 for Entry and 1
for Exit (whatever the fresh cycle maps hold). -/
theorem Init_empty_sequence (nop : gate) (nqubits : Nat) (cycle0 : Nat → Nat) :
    (Init nop [] nqubits).nodeNum = 2 ∧
    (Init nop [] nqubits).s = 0 ∧
    (Init nop [] nqubits).t = 1 ∧
    (Init nop [] nqubits).arcs = [⟨0, 1, 1, 0, DepTypes.RAW⟩] ∧
    (ScheduleASAP (Init nop [] nqubits) cycle0 []).1 0 = 0 ∧
    (ScheduleASAP (Init nop [] nqubits) cycle0 []).1 1 = 1 ∧
    TotalCycles (ScheduleALAP (Init nop [] nqubits) cycle0 []).1
      (ScheduleALAP (Init nop [] nqubits) cycle0 []).2 = 1 ∧
    reportedALAP (ScheduleALAP (Init nop [] nqubits) cycle0 []).1
      (ScheduleALAP (Init nop [] nqubits) cycle0 []).2 0 = 0 ∧
    reportedALAP (ScheduleALAP (Init nop [] nqubits) cycle0 []).1
      (ScheduleALAP (Init nop [] nqubits) cycle0 []).2 1 = 1 :=
  ⟨rfl, rfl, rfl, rfl, schedule_two_nodes (Init nop [] nqubits) cycle0 rfl rfl rfl⟩

/-! ## C14: the write-read-write chain -/

/-- C15, counterexample: operand index 5 with `nQubits = 1`.  `Init` has no
statement that tests an operand index or rejects a sequence, and no error
result; its embedding goes past the unchecked index and returns a graph with
the three nodes Entry, instruction and Exit. -/
theorem Init_has_no_range_check :
    ¬ InRange [⟨[5], 1, "g"⟩] 1 ∧ (Init ⟨[], 0, "nop"⟩ [⟨[5], 1, "g"⟩] 1).nodeNum = 3 := by
  refine ⟨?_, by decide⟩
  intro h
  have := h ⟨[5], 1, "g"⟩ (by simp) 5 (by simp)
  omega

/-- C15, amended: `Init` checks nothing and reports nothing; for every
`nQubits` and every sequence whose operand indices are all below `nQubits` it
returns the complete graph: Entry, one node per instruction in sequence order,
Exit, and arcs that all join two of these nodes. -/
theorem Init_complete_in_range (nop : gate) (ckt : circuit) (nqubits : Nat)
    (hr : InRange ckt nqubits) :
    (Init nop ckt nqubits).nodeNum = ckt.length + 2 ∧
    (Init nop ckt nqubits).instruction = nop :: ckt ++ [nop] ∧
    (∀ a ∈ (Init nop ckt nqubits).arcs,
      a.source < (Init nop ckt nqubits).nodeNum ∧ a.target < (Init nop ckt nqubits).nodeNum) := by
  obtain ⟨h1, h2, -, -, -⟩ := Init_spec nop ckt nqubits hr
  refine ⟨h1, h2, ?_⟩
  intro a ha
  rw [h1]
  rcases (mem_Init_arcs nop ckt nqubits hr a).mp ha with ⟨k, hk, hak⟩ | ⟨n, hn, _, rfl⟩
  · have h3 := insArcs_source_le hak
    have h4 := insArcs_target hak
    omega
  · simp only
    omega

/-- C15, the amended statement applied to a sequence of two instructions. -/
theorem Init_complete_in_range_witness :
    InRange [⟨[0], 2, "a"⟩, ⟨[0, 1], 1, "b"⟩] 2 ∧
      (Init ⟨[], 0, "nop"⟩ [⟨[0], 2, "a"⟩, ⟨[0, 1], 1, "b"⟩] 2).nodeNum = 2 + 2 :=
  ⟨by simp [InRange],
    (Init_complete_in_range ⟨[], 0, "nop"⟩ [⟨[0], 2, "a"⟩, ⟨[0, 1], 1, "b"⟩] 2
      (by simp [InRange])).1⟩

theorem asapNode_eq (g : DependGraph) (cycle : Nat → Nat) (v : Nat) :
    asapNode g cycle v = (g.inArcIt v).foldl (asapStep cycle) 0 := rfl

theorem mem_inArcIt {g : DependGraph} {v : Nat} {a : Arc} :
    a ∈ g.inArcIt v ↔ a ∈ g.arcs ∧ a.target = v := by
  simp [DependGraph.inArcIt]

/-- A loop that assigns the nodes `s, s + 1, ...` in turn, each from the values
of smaller nodes only, ends with a map that satisfies the assignment at every
node it visited. -/
theorem foldl_setCycle_fixpoint (f : (Nat → Nat) → Nat → Nat)
    (hf : ∀ c c' v, (∀ u, u < v → c u = c' u) → f c v = f c' v) (s n : Nat) (c0 : Nat → Nat) :
    (∀ m, m < s → (List.range' s n).foldl (fun c v => setCycle c v (f c v)) c0 m = c0 m) ∧
    (∀ v, s ≤ v → v < s + n →
      (List.range' s n).foldl (fun c v => setCycle c v (f c v)) c0 v =
        f ((List.range' s n).foldl (fun c v => setCycle c v (f c v)) c0) v) := by
  induction n with
  | zero =>
    refine ⟨fun m _ => rfl, fun v h1 h2 => ?_⟩
    omega
  | succ n ih =>
    obtain ⟨ih1, ih2⟩ := ih
    rw [List.range'_concat, List.foldl_append]
    simp only [List.foldl_cons, List.foldl_nil, one_mul]
    have hagree : ∀ u, u < s + n →
        setCycle ((List.range' s n).foldl (fun c v => setCycle c v (f c v)) c0) (s + n)
          (f ((List.range' s n).foldl (fun c v => setCycle c v (f c v)) c0) (s + n)) u =
        (List.range' s n).foldl (fun c v => setCycle c v (f c v)) c0 u := by
      intro u hu
      exact setCycle_other _ _ _ _ (by omega)
    refine ⟨?_, ?_⟩
    · intro m hm
      rw [hagree m (by omega)]
      exact ih1 m hm
    · intro v h1 h2
      rcases Nat.lt_or_ge v (s + n) with h | h
      · rw [hagree v h, ih2 v h1 h]
        exact hf _ _ v (fun u hu => (hagree u (by omega)).symm)
      · have hv : v = s + n := by omega
        subst hv
        rw [setCycle_same]
        exact hf _ _ (s + n) (fun u hu => (hagree u hu).symm)

theorem asapNode_congr (g : DependGraph) (hinc : ∀ a ∈ g.arcs, a.source < a.target)
    (c c' : Nat → Nat) (v : Nat) (h : ∀ u, u < v → c u = c' u) :
    asapNode g c v = asapNode g c' v := by
  rw [asapNode_eq, asapNode_eq]
  apply List.foldl_ext
  intro cur a ha
  obtain ⟨hm, ht⟩ := mem_inArcIt.mp ha
  have hlt : a.source < v := by
    have := hinc a hm
    omega
  simp only [asapStep, h a.source hlt]

/-- In a graph whose arcs all lead to a larger node id, the map computed by
`ScheduleASAP` has Entry at 0 and satisfies the loop of `ScheduleASAP` at every
other node. -/
theorem ScheduleASAP_fixpoint (g : DependGraph) (cycle0 : Nat → Nat) (n : Nat)
    (hn : g.nodeNum = n + 1) (hinc : ∀ a ∈ g.arcs, a.source < a.target) :
    (ScheduleASAP g cycle0 []).1 0 = 0 ∧
    ∀ v, 1 ≤ v → v ≤ n →
      (ScheduleASAP g cycle0 []).1 v =
        (g.inArcIt v).foldl (asapStep (ScheduleASAP g cycle0 []).1) 0 := by
  rw [ScheduleASAP_eq g cycle0 n hn]
  obtain ⟨h1, h2⟩ := foldl_setCycle_fixpoint (asapNode g) (asapNode_congr g hinc) 1 n
    (setCycle cycle0 0 0)
  refine ⟨?_, ?_⟩
  · show (List.range' 1 n).foldl (fun c v => setCycle c v (asapNode g c v))
      (setCycle cycle0 0 0) 0 = 0
    rw [h1 0 (by omega), setCycle_same]
  · intro v hv1 hv2
    show (List.range' 1 n).foldl (fun c v => setCycle c v (asapNode g c v))
      (setCycle cycle0 0 0) v = _
    rw [h2 v hv1 (by omega)]
    rfl

theorem asapStep_of_lt (C : Nat → Nat) (cur : Nat) (a : Arc)
    (h : C a.source + a.weight < 2 ^ 64) :
    asapStep C cur a = if cur ≤ C a.source then C a.source + a.weight else cur := by
  unfold asapStep
  rw [Nat.mod_eq_of_lt h]

/-- The `InArcIt` loop without wrap-around: the running value never decreases,
ends at or above the cycle of every source (strictly above it for an arc of
positive weight), and is either the start value or the cycle of some source
plus the weight of its arc. -/
theorem asapFold_spec (C : Nat → Nat) (l : List Arc) (cur : Nat)
    (h : ∀ a ∈ l, C a.source + a.weight < 2 ^ 64) :
    cur ≤ l.foldl (asapStep C) cur ∧
    (∀ a ∈ l, C a.source ≤ l.foldl (asapStep C) cur ∧
      (1 ≤ a.weight → C a.source < l.foldl (asapStep C) cur)) ∧
    (l.foldl (asapStep C) cur = cur ∨
      ∃ a ∈ l, l.foldl (asapStep C) cur = C a.source + a.weight) := by
  induction l generalizing cur with
  | nil => simp
  | cons a l ih =>
    have ha := h a (List.mem_cons_self _ _)
    obtain ⟨i1, i2, i3⟩ := ih (asapStep C cur a) (fun b hb => h b (List.mem_cons_of_mem _ hb))
    have hstep := asapStep_of_lt C cur a ha
    simp only [List.foldl_cons]
    have hge : cur ≤ asapStep C cur a := by
      rw [hstep]; split <;> omega
    have hsrc : C a.source ≤ asapStep C cur a ∧ (1 ≤ a.weight → C a.source < asapStep C cur a) := by
      rw [hstep]; split <;> constructor <;> omega
    refine ⟨le_trans hge i1, ?_, ?_⟩
    · intro b hb
      rcases List.mem_cons.mp hb with rfl | hb'
      · exact ⟨le_trans hsrc.1 i1, fun hw => lt_of_lt_of_le (hsrc.2 hw) i1⟩
      · exact i2 b hb'
    · rcases i3 with h3 | ⟨b, hb, h3⟩
      · rw [h3, hstep]
        by_cases hc : cur ≤ C a.source
        · right
          exact ⟨a, List.mem_cons_self _ _, by rw [if_pos hc]⟩
        · left
          rw [if_neg hc]
      · right
        exact ⟨b, List.mem_cons_of_mem _ hb, h3⟩

/-- Started at 0 on a non-empty list, the loop ends at the cycle of some source
plus the weight of its arc. -/
theorem asapFold_attained (C : Nat → Nat) (l : List Arc) (hl : l ≠ [])
    (h : ∀ a ∈ l, C a.source + a.weight < 2 ^ 64) :
    ∃ a ∈ l, l.foldl (asapStep C) 0 = C a.source + a.weight := by
  cases l with
  | nil => exact absurd rfl hl
  | cons a l =>
    have ha := h a (List.mem_cons_self _ _)
    obtain ⟨-, -, i3⟩ := asapFold_spec C l (asapStep C 0 a)
      (fun b hb => h b (List.mem_cons_of_mem _ hb))
    simp only [List.foldl_cons]
    rcases i3 with h3 | ⟨b, hb, h3⟩
    · refine ⟨a, List.mem_cons_self _ _, ?_⟩
      rw [h3, asapStep_of_lt C 0 a ha, if_pos (Nat.zero_le _)]
    · exact ⟨b, List.mem_cons_of_mem _ hb, h3⟩

/-- The map computed by `ScheduleASAP` on a graph with nodes `0 .. n` whose arcs
all lead to a larger node id and weigh at most `B`, when `(n + 1) * B` is below
`2 ^ 64`: no addition wraps around; along every arc the cycle does not decrease
(it increases for a positive weight); every node with an entering arc has an
entering arc that determines its cycle. -/
theorem ScheduleASAP_props (g : DependGraph) (cycle0 : Nat → Nat) (n B : Nat)
    (hn : g.nodeNum = n + 1) (hinc : ∀ a ∈ g.arcs, a.source < a.target)
    (hw : ∀ a ∈ g.arcs, a.weight ≤ B) (hB : (n + 1) * B < 2 ^ 64) :
    (ScheduleASAP g cycle0 []).1 0 = 0 ∧
    (∀ v, v ≤ n → (ScheduleASAP g cycle0 []).1 v ≤ v * B) ∧
    (∀ a ∈ g.arcs, a.target ≤ n →
      (ScheduleASAP g cycle0 []).1 a.source ≤ (ScheduleASAP g cycle0 []).1 a.target ∧
      (1 ≤ a.weight →
        (ScheduleASAP g cycle0 []).1 a.source < (ScheduleASAP g cycle0 []).1 a.target)) ∧
    (∀ v, 1 ≤ v → v ≤ n → (∃ a ∈ g.arcs, a.target = v) →
      ∃ a ∈ g.arcs, a.target = v ∧
        (ScheduleASAP g cycle0 []).1 v = (ScheduleASAP g cycle0 []).1 a.source + a.weight) := by
  obtain ⟨h0, hfix⟩ := ScheduleASAP_fixpoint g cycle0 n hn hinc
  have hmul : ∀ u v, u < v → v ≤ n → u * B + B ≤ v * B ∧ v * B < 2 ^ 64 := by
    intro u v huv hvn
    have h1 : (u + 1) * B ≤ v * B := Nat.mul_le_mul_right B (by omega)
    have h2 : v * B ≤ (n + 1) * B := Nat.mul_le_mul_right B (by omega)
    rw [Nat.succ_mul] at h1
    exact ⟨h1, by omega⟩
  have hbound : ∀ v, v ≤ n → (ScheduleASAP g cycle0 []).1 v ≤ v * B := by
    intro v
    induction v using Nat.strong_induction_on with
    | _ v ih =>
      intro hv
      rcases Nat.eq_zero_or_pos v with rfl | hpos
      · rw [h0]; omega
      · rw [hfix v hpos hv]
        have hno : ∀ a ∈ g.inArcIt v,
            (ScheduleASAP g cycle0 []).1 a.source + a.weight ≤ v * B := by
          intro a ha
          obtain ⟨hm, ht⟩ := mem_inArcIt.mp ha
          have hlt : a.source < v := by have := hinc a hm; omega
          have h1 := ih a.source hlt (by omega)
          have h2 := hw a hm
          have h3 := (hmul a.source v hlt hv).1
          omega
        have hlt64 := (hmul 0 v hpos hv).2
        obtain ⟨-, -, h3⟩ := asapFold_spec (ScheduleASAP g cycle0 []).1 (g.inArcIt v) 0
          (fun a ha => by have := hno a ha; omega)
        rcases h3 with h3 | ⟨a, ha, h3⟩
        · rw [h3]; omega
        · rw [h3]; exact hno a ha
  have hno : ∀ v, 1 ≤ v → v ≤ n → ∀ a ∈ g.inArcIt v,
      (ScheduleASAP g cycle0 []).1 a.source + a.weight < 2 ^ 64 := by
    intro v hv1 hv2 a ha
    obtain ⟨hm, ht⟩ := mem_inArcIt.mp ha
    have hlt : a.source < v := by have := hinc a hm; omega
    have h1 := hbound a.source (by omega)
    have h2 := hw a hm
    have h3 := hmul a.source v hlt hv2
    omega
  refine ⟨h0, hbound, ?_, ?_⟩
  · intro a ha ht
    have hpos : 1 ≤ a.target := by have := hinc a ha; omega
    obtain ⟨-, h2, -⟩ := asapFold_spec (ScheduleASAP g cycle0 []).1 (g.inArcIt a.target) 0
      (hno a.target hpos ht)
    rw [hfix a.target hpos ht]
    exact h2 a (mem_inArcIt.mpr ⟨ha, rfl⟩)
  · intro v hv1 hv2 ⟨a, ha, hat⟩
    have hne : g.inArcIt v ≠ [] := List.ne_nil_of_mem (mem_inArcIt.mpr ⟨ha, hat⟩)
    obtain ⟨b, hb, hbv⟩ := asapFold_attained (ScheduleASAP g cycle0 []).1 (g.inArcIt v) hne
      (hno v hv1 hv2)
    obtain ⟨hm, ht⟩ := mem_inArcIt.mp hb
    exact ⟨b, hm, ht, by rw [hfix v hv1 hv2]; exact hbv⟩

/-! ## Weights and entering arcs of the built graph -/

/-- Every arc of the built graph weighs 1 or what the `int` map holds of the
latency of an instruction of the sequence; the arcs leaving Entry and the arcs
entering Exit weigh 1. -/
theorem Init_weights (nop : gate) (ckt : circuit) (nqubits : Nat) (hr : InRange ckt nqubits)
    (a : Arc) (ha : a ∈ (Init nop ckt nqubits).arcs) :
    (a.weight = 1 ∨ ∃ ins, ins ∈ ckt ∧ a.weight = intWeight ins.latency) ∧
    (a.source = 0 → a.weight = 1) ∧ (a.target = ckt.length + 1 → a.weight = 1) := by
  have hprod : ∀ k q, k < ckt.length →
      (prodWeight ckt (lastWriter ckt k q) = 1 ∨
        ∃ ins, ins ∈ ckt ∧ prodWeight ckt (lastWriter ckt k q) = intWeight ins.latency) ∧
      (lastWriter ckt k q = 0 → prodWeight ckt (lastWriter ckt k q) = 1) := by
    intro k q hk
    have hle := lastWriter_le ckt k q
    by_cases h0 : lastWriter ckt k q = 0
    · simp [prodWeight, h0]
    · refine ⟨Or.inr ?_, fun h => absurd h h0⟩
      simp only [prodWeight, if_neg h0]
      obtain ⟨ins, hins, he⟩ := instrLatency_mem ckt (lastWriter ckt k q) (by omega) (by omega)
      exact ⟨ins, hins, by rw [he]⟩
  rcases (mem_Init_arcs nop ckt nqubits hr a).mp ha with ⟨k, hk, hak⟩ | ⟨n, hn, _, rfl⟩
  · have ht := insArcs_target hak
    rcases mem_insArcs.mp hak with ⟨q, _, rfl⟩ | ⟨q, _, rfl | ⟨r, hrd, rfl⟩⟩
    · exact ⟨(hprod k q hk).1, (hprod k q hk).2, fun h => by simp only [prodArc] at h; omega⟩
    · exact ⟨(hprod k q hk).1, (hprod k q hk).2, fun h => by simp only [prodArc] at h; omega⟩
    · have hr1 : 1 ≤ r ∧ r ≤ ckt.length := by
        rcases hrd with h | ⟨rfl, _⟩
        · obtain ⟨j, hj, rfl, _⟩ := mem_readersBefore.mp h
          omega
        · omega
      refine ⟨?_, fun h => by simp only [warArc] at h; omega,
        fun h => by simp only [warArc] at h; omega⟩
      by_cases h0 : lastWriter ckt k q = 0
      · left; simp [warArc, h0]
      · right
        simp only [warArc, if_neg h0]
        obtain ⟨ins, hins, he⟩ := instrLatency_mem ckt r hr1.1 hr1.2
        exact ⟨ins, hins, by rw [he]⟩
  · exact ⟨Or.inl rfl, fun _ => rfl, fun _ => rfl⟩

/-- On a sequence that fits the integer types every arc of the built graph
weighs 1 or the latency of an instruction of the sequence. -/
theorem Init_weights_fit (nop : gate) (ckt : circuit) (nqubits : Nat)
    (hr : InRange ckt nqubits) (hfit : FitsInt ckt)
    (a : Arc) (ha : a ∈ (Init nop ckt nqubits).arcs) :
    a.weight = 1 ∨ ∃ ins, ins ∈ ckt ∧ a.weight = ins.latency := by
  rcases (Init_weights nop ckt nqubits hr a ha).1 with h | ⟨ins, hins, h⟩
  · exact Or.inl h
  · exact Or.inr ⟨ins, hins, by rw [h, intWeight_of_lt (hfit.2 ins hins)]⟩

/-- With non-empty operand lists and no instruction reading its own written
operand, every node other than Entry has an entering arc. -/
theorem Init_in_arc (nop : gate) (ckt : circuit) (nqubits : Nat) (hne : NonEmptyOps ckt)
    (hr : InRange ckt nqubits) (hl : LastNotRead ckt) (v : Nat) (h1 : 1 ≤ v)
    (h2 : v ≤ ckt.length + 1) : ∃ a ∈ (Init nop ckt nqubits).arcs, a.target = v := by
  rcases Nat.lt_or_ge v (ckt.length + 1) with h | h
  · have hk : v - 1 < ckt.length := by omega
    have hget : ckt[v - 1]? = some ckt[v - 1] := List.getElem?_eq_getElem hk
    have hops := opsOf_eq hget
    have hnonempty : ckt[v - 1].operands ≠ [] := hne _ (List.getElem_mem hk)
    obtain ⟨pre, q, hpq⟩ : ∃ pre q, ckt[v - 1].operands = pre ++ [q] := by
      rcases List.eq_nil_or_concat ckt[v - 1].operands with h0 | ⟨pre, q, hpq⟩
      · exact absurd h0 hnonempty
      · exact ⟨pre, q, by rw [hpq, List.concat_eq_append]⟩
    have hlast : (opsOf ckt (v - 1)).getLast? = some q := by
      rw [hops, hpq, List.getLast?_concat]
    refine ⟨prodArc ckt (v - 1) q DepTypes.WAW,
      (mem_Init_arcs nop ckt nqubits hr _).mpr
        (Or.inl ⟨v - 1, hk, mem_insArcs.mpr (Or.inr ⟨q, hlast, Or.inl rfl⟩)⟩), ?_⟩
    simp only [prodArc]
    omega
  · have hv : v = ckt.length + 1 := by omega
    subst hv
    obtain ⟨p, hp⟩ := Init_walk_to_Exit nop ckt nqubits hr hl 0 (by omega)
    exact isWalk_last_arc _ p 0 _ hp (by omega)

theorem NodupOps_LastNotRead {ckt : circuit} (h : NodupOps ckt) : LastNotRead ckt := by
  intro ins hins q hq hd
  have hnd := h ins hins
  have happ := List.dropLast_append_getLast? q (by simpa using hq)
  rw [← happ] at hnd
  have := (List.nodup_append.mp hnd).2.2
  exact this hd (List.mem_singleton_self q)

/-- The hypotheses of `ScheduleASAP_props` for the graph built from a sequence
that fits the integer types, with the weight bound `2 ^ 31`. -/
theorem Init_asap_hyps (nop : gate) (ckt : circuit) (nqubits : Nat) (hr : InRange ckt nqubits)
    (hl : LastNotRead ckt) (hfit : FitsInt ckt) :
    (Init nop ckt nqubits).nodeNum = (ckt.length + 1) + 1 ∧
    (∀ a ∈ (Init nop ckt nqubits).arcs, a.source < a.target) ∧
    (∀ a ∈ (Init nop ckt nqubits).arcs, a.target ≤ ckt.length + 1) ∧
    (∀ a ∈ (Init nop ckt nqubits).arcs, a.weight ≤ 2 ^ 31) ∧
    ((ckt.length + 1) + 1) * 2 ^ 31 < 2 ^ 64 := by
  refine ⟨(Init_spec nop ckt nqubits hr).1, ?_, ?_, ?_, ?_⟩
  · exact fun a ha => (Init_arcs_increasing nop ckt nqubits hr hl a ha).1
  · intro a ha
    have := (Init_arcs_increasing nop ckt nqubits hr hl a ha).2
    omega
  · intro a ha
    rcases Init_weights_fit nop ckt nqubits hr hfit a ha with h | ⟨ins, hins, h⟩
    · rw [h]; norm_num
    · rw [h]; exact le_of_lt (hfit.2 ins hins)
  · have := hfit.1
    omega

/-! ## C18: arcs follow the creation order of the nodes -/

/-- C18: for every sequence with operand indices below `nQubits` in which no
instruction lists the same operand index twice, the nodes have the ids
`0 .. n + 1` in creation order (Entry, the instructions in sequence order,
Exit) and every arc leads from a node to a node created strictly later;
consequently the graph has no directed cycle, and the descending-id vector of
`TopologicalSort`, read from its back, is a topological order. -/
theorem Init_arcs_follow_creation_order (nop : gate) (ckt : circuit) (nqubits : Nat)
    (hr : InRange ckt nqubits) (hnd : NodupOps ckt) :
    (Init nop ckt nqubits).instruction = nop :: ckt ++ [nop] ∧
    (Init nop ckt nqubits).s = 0 ∧
    (Init nop ckt nqubits).t = ckt.length + 1 ∧
    (∀ a ∈ (Init nop ckt nqubits).arcs,
      a.source < a.target ∧ a.target < (Init nop ckt nqubits).nodeNum) ∧
    ¬ hasCycle (Init nop ckt nqubits) ∧
    TopologicalSort (Init nop ckt nqubits) [] =
      (List.range (Init nop ckt nqubits).nodeNum).reverse ∧
    IsTopologicalOrder (Init nop ckt nqubits)
      (TopologicalSort (Init nop ckt nqubits) []).reverse := by
  have hl := NodupOps_LastNotRead hnd
  obtain ⟨h1, h2, h3, h4, -⟩ := Init_spec nop ckt nqubits hr
  have hinc : ∀ a ∈ (Init nop ckt nqubits).arcs, a.source < a.target :=
    fun a ha => (Init_arcs_increasing nop ckt nqubits hr hl a ha).1
  refine ⟨h2, h3, h4, ?_, no_cycle_of_increasing _ hinc, ?_, ?_⟩
  · intro a ha
    rw [h1]
    exact Init_arcs_increasing nop ckt nqubits hr hl a ha
  · simp [TopologicalSort, DependGraph.nodeIt]
  · rw [TopologicalSort_reverse]
    exact range_isTopologicalOrder _ ckt.length h1 h3 h4 hinc

/-- C18 applied to a sequence of three instructions. -/
theorem Init_arcs_follow_creation_order_witness :
    InRange [⟨[0], 2, "a"⟩, ⟨[0, 1], 1, "b"⟩, ⟨[1], 1, "c"⟩] 2 ∧
      NodupOps [⟨[0], 2, "a"⟩, ⟨[0, 1], 1, "b"⟩, ⟨[1], 1, "c"⟩] ∧
      ¬ hasCycle (Init ⟨[], 0, "nop"⟩ [⟨[0], 2, "a"⟩, ⟨[0, 1], 1, "b"⟩, ⟨[1], 1, "c"⟩] 2) :=
  ⟨by simp [InRange], by simp [NodupOps],
    (Init_arcs_follow_creation_order ⟨[], 0, "nop"⟩
      [⟨[0], 2, "a"⟩, ⟨[0, 1], 1, "b"⟩, ⟨[1], 1, "c"⟩] 2
      (by simp [InRange]) (by simp [NodupOps])).2.2.2.2.1⟩

/-! ## C19 - C20: `ScheduleASAP` with positive and with unit latencies -/

theorem isWalk_length_le (g : DependGraph) (C : Nat → Nat)
    (h : ∀ a ∈ g.arcs, C a.source + 1 ≤ C a.target) (p : List Arc) (u v : Nat)
    (hw : isWalk g u p v) : C u + p.length ≤ C v := by
  induction p generalizing u with
  | nil =>
    have : u = v := hw
    subst this
    simp
  | cons a p ih =>
    obtain ⟨ha, hs, hp⟩ := hw
    have h1 := h a ha
    have h2 := ih a.target hp
    rw [hs] at h1
    simp only [List.length_cons]
    omega

theorem isWalk_of_attained (g : DependGraph) (C : Nat → Nat) (n : Nat) (h0 : C 0 = 0)
    (h : ∀ v, 1 ≤ v → v ≤ n →
      ∃ a ∈ g.arcs, a.target = v ∧ a.source < v ∧ C v = C a.source + 1)
    (v : Nat) (hv : v ≤ n) : ∃ p, isWalk g 0 p v ∧ p.length = C v := by
  induction v using Nat.strong_induction_on with
  | _ v ih =>
    rcases Nat.eq_zero_or_pos v with rfl | hpos
    · exact ⟨[], rfl, by rw [h0]; rfl⟩
    · obtain ⟨a, ha, hat, hlt, hc⟩ := h v hpos hv
      obtain ⟨p, hp, hlen⟩ := ih a.source hlt (by omega)
      refine ⟨p ++ [a], isWalk_append g 0 a.source v p [a] hp ⟨ha, rfl, hat⟩, ?_⟩
      rw [List.length_append, hlen, hc]
      rfl

/-- C20: for every sequence with non-empty operand lists, operand indices below
`nQubits`, no operand index repeated inside one instruction and every latency
equal to 1 (the sequence fitting the integer types of the code), every arc has
weight 1 and, for every node `v` other than Entry, the cycle computed by
`ScheduleASAP` is `1 + max` of the cycles of the sources of the arcs entering
`v`: it is at least `cycle (u) + 1` for every arc `u -> v` and equal to it for
one of them.  It is the number of arcs of a longest path from Entry to `v`, and
the loop over the entering arcs gives this value in whatever order the arcs are
visited. -/
theorem ScheduleASAP_unit_latency (nop : gate) (ckt : circuit) (nqubits : Nat)
    (cycle0 : Nat → Nat) (hne : NonEmptyOps ckt) (hr : InRange ckt nqubits)
    (hnd : NodupOps ckt) (hfit : FitsInt ckt) (hunit : ∀ ins ∈ ckt, ins.latency = 1) :
    (∀ a ∈ (Init nop ckt nqubits).arcs, a.weight = 1) ∧
    ∀ v, v < (Init nop ckt nqubits).nodeNum → v ≠ (Init nop ckt nqubits).s →
      (∀ a ∈ (Init nop ckt nqubits).arcs, a.target = v →
        (ScheduleASAP (Init nop ckt nqubits) cycle0 []).1 a.source + 1 ≤
          (ScheduleASAP (Init nop ckt nqubits) cycle0 []).1 v) ∧
      (∃ a ∈ (Init nop ckt nqubits).arcs, a.target = v ∧
        (ScheduleASAP (Init nop ckt nqubits) cycle0 []).1 v =
          1 + (ScheduleASAP (Init nop ckt nqubits) cycle0 []).1 a.source) ∧
      (∀ p, isWalk (Init nop ckt nqubits) (Init nop ckt nqubits).s p v →
        p.length ≤ (ScheduleASAP (Init nop ckt nqubits) cycle0 []).1 v) ∧
      (∃ p, isWalk (Init nop ckt nqubits) (Init nop ckt nqubits).s p v ∧
        p.length = (ScheduleASAP (Init nop ckt nqubits) cycle0 []).1 v) ∧
      (∀ l : List Arc, l.Perm ((Init nop ckt nqubits).inArcIt v) →
        l.foldl (asapStep (ScheduleASAP (Init nop ckt nqubits) cycle0 []).1) 0 =
          (ScheduleASAP (Init nop ckt nqubits) cycle0 []).1 v) := by
  have hl := NodupOps_LastNotRead hnd
  obtain ⟨hn, hinc, htgt, hw, hB⟩ := Init_asap_hyps nop ckt nqubits hr hl hfit
  obtain ⟨p1, p2, p3, p4⟩ := ScheduleASAP_props (Init nop ckt nqubits) cycle0 (ckt.length + 1)
    (2 ^ 31) hn hinc hw hB
  have hs := (Init_spec nop ckt nqubits hr).2.2.1
  have hw1 : ∀ a ∈ (Init nop ckt nqubits).arcs, a.weight = 1 := by
    intro a ha
    rcases Init_weights_fit nop ckt nqubits hr hfit a ha with h | ⟨ins, hins, h⟩
    · exact h
    · rw [h]; exact hunit ins hins
  have hstep : ∀ a ∈ (Init nop ckt nqubits).arcs,
      (ScheduleASAP (Init nop ckt nqubits) cycle0 []).1 a.source + 1 ≤
        (ScheduleASAP (Init nop ckt nqubits) cycle0 []).1 a.target := by
    intro a ha
    have := (p3 a ha (htgt a ha)).2 (by rw [hw1 a ha])
    omega
  have hatt : ∀ v, 1 ≤ v → v ≤ ckt.length + 1 →
      ∃ a ∈ (Init nop ckt nqubits).arcs, a.target = v ∧ a.source < v ∧
        (ScheduleASAP (Init nop ckt nqubits) cycle0 []).1 v =
          (ScheduleASAP (Init nop ckt nqubits) cycle0 []).1 a.source + 1 := by
    intro v hv1 hv2
    obtain ⟨a, ha, hat, hc⟩ := p4 v hv1 hv2 (Init_in_arc nop ckt nqubits hne hr hl v hv1 hv2)
    refine ⟨a, ha, hat, ?_, ?_⟩
    · have := hinc a ha; omega
    · rw [hc, hw1 a ha]
  refine ⟨hw1, ?_⟩
  intro v hv hvs
  rw [hn] at hv
  rw [hs] at hvs ⊢
  have hv1 : 1 ≤ v := by omega
  have hv2 : v ≤ ckt.length + 1 := by omega
  refine ⟨?_, ?_, ?_, ?_, ?_⟩
  · intro a ha hat
    have := hstep a ha
    rw [hat] at this
    exact this
  · obtain ⟨a, ha, hat, -, hc⟩ := hatt v hv1 hv2
    exact ⟨a, ha, hat, by rw [hc]; omega⟩
  · intro p hp
    have := isWalk_length_le _ _ hstep p 0 v hp
    omega
  · exact isWalk_of_attained _ _ (ckt.length + 1) p1 hatt v hv2
  · intro l hperm
    have hmem : ∀ a, a ∈ l ↔ a ∈ (Init nop ckt nqubits).arcs ∧ a.target = v := by
      intro a
      rw [hperm.mem_iff, mem_inArcIt]
    obtain ⟨a0, ha0, hat0, -, hc0⟩ := hatt v hv1 hv2
    have hne' : l ≠ [] := List.ne_nil_of_mem ((hmem a0).mpr ⟨ha0, hat0⟩)
    have hno : ∀ a ∈ l,
        (ScheduleASAP (Init nop ckt nqubits) cycle0 []).1 a.source + a.weight < 2 ^ 64 := by
      intro a ha
      obtain ⟨hm, ht⟩ := (hmem a).mp ha
      have h1 := hinc a hm
      have h2 := p2 a.source (by omega)
      have h3 := hfit.1
      rw [hw1 a hm]
      omega
    obtain ⟨-, s2, -⟩ := asapFold_spec _ l 0 hno
    obtain ⟨b, hb, hbv⟩ := asapFold_attained _ l hne' hno
    obtain ⟨hbm, hbt⟩ := (hmem b).mp hb
    have h1 := (s2 a0 ((hmem a0).mpr ⟨ha0, hat0⟩)).2 (by rw [hw1 a0 ha0])
    have h2 := hstep b hbm
    rw [hbt] at h2
    rw [hw1 b hbm] at hbv
    omega

/-- C20 applied to a sequence of three instructions with latency 1. -/
theorem ScheduleASAP_unit_latency_witness :
    NonEmptyOps [⟨[0], 1, "a"⟩, ⟨[0, 1], 1, "b"⟩, ⟨[1], 1, "c"⟩] ∧
      InRange [⟨[0], 1, "a"⟩, ⟨[0, 1], 1, "b"⟩, ⟨[1], 1, "c"⟩] 2 ∧
      NodupOps [⟨[0], 1, "a"⟩, ⟨[0, 1], 1, "b"⟩, ⟨[1], 1, "c"⟩] ∧
      FitsInt [⟨[0], 1, "a"⟩, ⟨[0, 1], 1, "b"⟩, ⟨[1], 1, "c"⟩] ∧
      (∀ ins ∈ ([⟨[0], 1, "a"⟩, ⟨[0, 1], 1, "b"⟩, ⟨[1], 1, "c"⟩] : circuit), ins.latency = 1) ∧
      ∀ a ∈ (Init ⟨[], 0, "nop"⟩ [⟨[0], 1, "a"⟩, ⟨[0, 1], 1, "b"⟩, ⟨[1], 1, "c"⟩] 2).arcs,
        a.weight = 1 :=
  ⟨by simp [NonEmptyOps], by simp [InRange], by simp [NodupOps], by simp [FitsInt],
    by simp,
    (ScheduleASAP_unit_latency ⟨[], 0, "nop"⟩
      [⟨[0], 1, "a"⟩, ⟨[0, 1], 1, "b"⟩, ⟨[1], 1, "c"⟩] 2 (fun _ => 0)
      (by simp [NonEmptyOps]) (by simp [InRange]) (by simp [NodupOps]) (by simp [FitsInt])
      (by simp)).1⟩

/-! ## C17: the per-cycle listing -/

theorem alapNode_eq (g : DependGraph) (cycle : Nat → Nat) (u : Nat) :
    alapNode g cycle u = (g.outArcIt u).foldl (alapStep cycle) MAX_CYCLE := rfl

theorem mem_outArcIt {g : DependGraph} {u : Nat} {a : Arc} :
    a ∈ g.outArcIt u ↔ a ∈ g.arcs ∧ a.source = u := by
  simp [DependGraph.outArcIt]

/-- A loop that assigns the nodes `n - 1, n - 2, ..., 0` in turn, each from the
values of larger nodes only, ends with a map that satisfies the assignment at
every node it visited. -/
theorem foldl_setCycle_fixpoint_down (f : (Nat → Nat) → Nat → Nat)
    (hf : ∀ c c' v, (∀ u, v < u → c u = c' u) → f c v = f c' v) (n : Nat) (c0 : Nat → Nat) :
    (∀ m, n ≤ m → (List.range n).reverse.foldl (fun c v => setCycle c v (f c v)) c0 m = c0 m) ∧
    (∀ v, v < n →
      (List.range n).reverse.foldl (fun c v => setCycle c v (f c v)) c0 v =
        f ((List.range n).reverse.foldl (fun c v => setCycle c v (f c v)) c0) v) := by
  induction n generalizing c0 with
  | zero =>
    refine ⟨fun m _ => rfl, fun v h => ?_⟩
    omega
  | succ n ih =>
    obtain ⟨ih1, ih2⟩ := ih (setCycle c0 n (f c0 n))
    have hr : (List.range (n + 1)).reverse = n :: (List.range n).reverse := by
      simp [List.range_succ]
    rw [hr]
    simp only [List.foldl_cons]
    refine ⟨?_, ?_⟩
    · intro m hm
      rw [ih1 m (by omega)]
      exact setCycle_other _ _ _ _ (by omega)
    · intro v hv
      rcases Nat.lt_or_ge v n with h | h
      · exact ih2 v h
      · have hvn : v = n := by omega
        subst hvn
        rw [ih1 v (le_refl _), setCycle_same]
        apply hf
        intro u hu
        rw [ih1 u (by omega)]
        exact (setCycle_other _ _ _ _ (by omega)).symm

theorem alapNode_congr (g : DependGraph) (hinc : ∀ a ∈ g.arcs, a.source < a.target)
    (c c' : Nat → Nat) (v : Nat) (h : ∀ u, v < u → c u = c' u) :
    alapNode g c v = alapNode g c' v := by
  rw [alapNode_eq, alapNode_eq]
  apply List.foldl_ext
  intro cur a ha
  obtain ⟨hm, hs⟩ := mem_outArcIt.mp ha
  have hlt : v < a.target := by
    have := hinc a hm
    omega
  simp only [alapStep, h a.target hlt]

/-- In a graph whose arcs all lead to a larger node id, the map computed by
`ScheduleALAP` has the last node at `MAX_CYCLE` and satisfies the loop of
`ScheduleALAP` at every other node. -/
theorem ScheduleALAP_fixpoint (g : DependGraph) (cycle0 : Nat → Nat) (n : Nat)
    (hn : g.nodeNum = n + 1) (hinc : ∀ a ∈ g.arcs, a.source < a.target) :
    (ScheduleALAP g cycle0 []).1 n = MAX_CYCLE ∧
    ∀ u, u < n →
      (ScheduleALAP g cycle0 []).1 u =
        (g.outArcIt u).foldl (alapStep (ScheduleALAP g cycle0 []).1) MAX_CYCLE := by
  rw [ScheduleALAP_eq g cycle0 n hn]
  obtain ⟨h1, h2⟩ := foldl_setCycle_fixpoint_down (alapNode g) (alapNode_congr g hinc) n
    (setCycle cycle0 n MAX_CYCLE)
  refine ⟨?_, ?_⟩
  · show (List.range n).reverse.foldl (fun c v => setCycle c v (alapNode g c v))
      (setCycle cycle0 n MAX_CYCLE) n = MAX_CYCLE
    rw [h1 n (le_refl _), setCycle_same]
  · intro u hu
    show (List.range n).reverse.foldl (fun c v => setCycle c v (alapNode g c v))
      (setCycle cycle0 n MAX_CYCLE) u = _
    rw [h2 u hu]
    rfl

theorem sub_one_mod (N t : Nat) (h1 : 1 ≤ t) (h2 : t < N) :
    (t + (N - 1 % N)) % N = t - 1 := by
  have hN : 1 < N := by omega
  rw [Nat.mod_eq_of_lt hN]
  have e : t + (N - 1) = (t - 1) + N := by omega
  rw [e, Nat.add_mod_right]
  exact Nat.mod_eq_of_lt (by omega)

theorem alapStep_unit (C : Nat → Nat) (cur : Nat) (a : Arc) (hw : a.weight = 1)
    (h1 : 1 ≤ C a.target) (h2 : C a.target < 2 ^ 64) :
    alapStep C cur a = if cur ≥ C a.target then C a.target - 1 else cur := by
  unfold alapStep
  rw [hw, sub_one_mod (2 ^ 64) (C a.target) h1 h2]

/-- The `OutArcIt` loop on arcs of weight 1 without wrap-around: the running
value never increases, ends strictly below the cycle of every target, and is
either the start value or the cycle of some target minus one. -/
theorem alapFold_spec (C : Nat → Nat) (l : List Arc) (cur : Nat)
    (h : ∀ a ∈ l, a.weight = 1 ∧ 1 ≤ C a.target ∧ C a.target < 2 ^ 64) :
    l.foldl (alapStep C) cur ≤ cur ∧
    (∀ a ∈ l, l.foldl (alapStep C) cur + 1 ≤ C a.target) ∧
    (l.foldl (alapStep C) cur = cur ∨
      ∃ a ∈ l, l.foldl (alapStep C) cur + 1 = C a.target) := by
  induction l generalizing cur with
  | nil => simp
  | cons a l ih =>
    obtain ⟨hw, h1, h2⟩ := h a (List.mem_cons_self _ _)
    obtain ⟨i1, i2, i3⟩ := ih (alapStep C cur a) (fun b hb => h b (List.mem_cons_of_mem _ hb))
    have hstep := alapStep_unit C cur a hw h1 h2
    simp only [List.foldl_cons]
    have hle : alapStep C cur a ≤ cur := by
      rw [hstep]; split <;> omega
    have htg : alapStep C cur a + 1 ≤ C a.target := by
      rw [hstep]; split <;> omega
    refine ⟨le_trans i1 hle, ?_, ?_⟩
    · intro b hb
      rcases List.mem_cons.mp hb with rfl | hb'
      · omega
      · exact i2 b hb'
    · rcases i3 with h3 | ⟨b, hb, h3⟩
      · rw [h3, hstep]
        by_cases hc : cur ≥ C a.target
        · right
          refine ⟨a, List.mem_cons_self _ _, ?_⟩
          rw [if_pos hc]
          omega
        · left
          rw [if_neg hc]
      · right
        exact ⟨b, List.mem_cons_of_mem _ hb, h3⟩

/-- Started at `MAX_CYCLE` on a non-empty list of arcs of weight 1, the loop
ends at the cycle of some target minus one. -/
theorem alapFold_attained (C : Nat → Nat) (l : List Arc) (hl : l ≠ [])
    (h : ∀ a ∈ l, a.weight = 1 ∧ 1 ≤ C a.target ∧ C a.target < 2 ^ 64) :
    ∃ a ∈ l, l.foldl (alapStep C) MAX_CYCLE + 1 = C a.target := by
  obtain ⟨-, i2, i3⟩ := alapFold_spec C l MAX_CYCLE h
  rcases i3 with h3 | h3
  · obtain ⟨a, ha⟩ := List.exists_mem_of_ne_nil l hl
    have := i2 a ha
    have := (h a ha).2.2
    rw [h3] at *
    have hm : MAX_CYCLE = 2 ^ 64 - 1 := rfl
    omega
  · exact h3

/-- The map computed by `ScheduleALAP` on a graph with nodes `0 .. n` whose arcs
all have weight 1 and lead to a larger node id, when every node but the last
has a leaving arc and `n + 1` is below `2 ^ 64`: the last node is at
`MAX_CYCLE`, every node `u` lies between `MAX_CYCLE - (n - u)` and `MAX_CYCLE`
(no subtraction wraps around), the cycle increases along every arc, and every
node but the last has a leaving arc that determines its cycle. -/
theorem ScheduleALAP_props (g : DependGraph) (cycle0 : Nat → Nat) (n : Nat)
    (hn : g.nodeNum = n + 1) (hinc : ∀ a ∈ g.arcs, a.source < a.target)
    (htgt : ∀ a ∈ g.arcs, a.target ≤ n) (hw : ∀ a ∈ g.arcs, a.weight = 1)
    (hout : ∀ u, u < n → ∃ a ∈ g.arcs, a.source = u) (hB : n + 1 < 2 ^ 64) :
    (ScheduleALAP g cycle0 []).1 n = MAX_CYCLE ∧
    (∀ u, u ≤ n → MAX_CYCLE - (n - u) ≤ (ScheduleALAP g cycle0 []).1 u ∧
      (ScheduleALAP g cycle0 []).1 u ≤ MAX_CYCLE) ∧
    (∀ a ∈ g.arcs,
      (ScheduleALAP g cycle0 []).1 a.source + 1 ≤ (ScheduleALAP g cycle0 []).1 a.target) ∧
    (∀ u, u < n → ∃ a ∈ g.arcs, a.source = u ∧ u < a.target ∧
      (ScheduleALAP g cycle0 []).1 u + 1 = (ScheduleALAP g cycle0 []).1 a.target) := by
  obtain ⟨f1, f2⟩ := ScheduleALAP_fixpoint g cycle0 n hn hinc
  have hm : MAX_CYCLE = 2 ^ 64 - 1 := rfl
  generalize (ScheduleALAP g cycle0 []).1 = A at f1 f2 ⊢
  have hbound : ∀ d u, n - u = d → u ≤ n → MAX_CYCLE - (n - u) ≤ A u ∧ A u ≤ MAX_CYCLE := by
    intro d
    induction d using Nat.strong_induction_on with
    | _ d ih =>
      intro u hd hu
      rcases Nat.lt_or_ge u n with hlt | hge
      · have hside : ∀ a ∈ g.outArcIt u, a.weight = 1 ∧ 1 ≤ A a.target ∧ A a.target < 2 ^ 64 := by
          intro a ha
          obtain ⟨ham, has⟩ := mem_outArcIt.mp ha
          have h1 := hinc a ham
          have h2 := htgt a ham
          have h3 := ih (n - a.target) (by omega) a.target rfl h2
          exact ⟨hw a ham, by omega, by omega⟩
        obtain ⟨a0, ha0, hs0⟩ := hout u hlt
        have hne : g.outArcIt u ≠ [] := List.ne_nil_of_mem (mem_outArcIt.mpr ⟨ha0, hs0⟩)
        obtain ⟨i1, -, -⟩ := alapFold_spec A (g.outArcIt u) MAX_CYCLE hside
        obtain ⟨b, hb, hbv⟩ := alapFold_attained A (g.outArcIt u) hne hside
        obtain ⟨hbm, hbs⟩ := mem_outArcIt.mp hb
        have h1 := hinc b hbm
        have h2 := htgt b hbm
        have h3 := ih (n - b.target) (by omega) b.target rfl h2
        rw [f2 u hlt]
        omega
      · have : u = n := by omega
        subst this
        rw [f1]
        omega
  have hside : ∀ u, ∀ a ∈ g.outArcIt u, a.weight = 1 ∧ 1 ≤ A a.target ∧ A a.target < 2 ^ 64 := by
    intro u a ha
    obtain ⟨ham, has⟩ := mem_outArcIt.mp ha
    have h1 := hinc a ham
    have h2 := htgt a ham
    have h3 := hbound _ a.target rfl h2
    exact ⟨hw a ham, by omega, by omega⟩
  refine ⟨f1, fun u hu => hbound _ u rfl hu, ?_, ?_⟩
  · intro a ha
    have h1 := hinc a ha
    have h2 := htgt a ha
    obtain ⟨-, i2, -⟩ := alapFold_spec A (g.outArcIt a.source) MAX_CYCLE (hside a.source)
    have := i2 a (mem_outArcIt.mpr ⟨ha, rfl⟩)
    rw [f2 a.source (by omega)]
    exact this
  · intro u hu
    obtain ⟨a0, ha0, hs0⟩ := hout u hu
    have hne : g.outArcIt u ≠ [] := List.ne_nil_of_mem (mem_outArcIt.mpr ⟨ha0, hs0⟩)
    obtain ⟨b, hb, hbv⟩ := alapFold_attained A (g.outArcIt u) hne (hside u)
    obtain ⟨hbm, hbs⟩ := mem_outArcIt.mp hb
    have h1 := hinc b hbm
    refine ⟨b, hbm, hbs, by omega, ?_⟩
    rw [f2 u hu]
    exact hbv

/-- Following from every node a leaving arc that determines its cycle gives a
walk to the last node whose number of arcs is the distance of the cycle from
`MAX_CYCLE`. -/
theorem isWalk_to_last_of_attained (g : DependGraph) (A : Nat → Nat) (n M : Nat) (hA : A n = M)
    (h : ∀ u, u < n → ∃ a ∈ g.arcs, a.source = u ∧ u < a.target ∧ a.target ≤ n ∧
      A u + 1 = A a.target)
    (u : Nat) (hu : u ≤ n) : ∃ p, isWalk g u p n ∧ A u + p.length = M := by
  have key : ∀ d u, n - u = d → u ≤ n → ∃ p, isWalk g u p n ∧ A u + p.length = M := by
    intro d
    induction d using Nat.strong_induction_on with
    | _ d ih =>
      intro u hd hu
      rcases Nat.lt_or_ge u n with hlt | hge
      · obtain ⟨a, ha, has, hlt2, hle, hc⟩ := h u hlt
        obtain ⟨p, hp, hlen⟩ := ih (n - a.target) (by omega) a.target rfl hle
        refine ⟨a :: p, ⟨ha, has, hp⟩, ?_⟩
        simp only [List.length_cons]
        omega
      · have : u = n := by omega
        subst this
        exact ⟨[], rfl, by simpa using hA⟩
  exact key _ u rfl hu

/-! ## C21: `ScheduleALAP` with unit latencies -/

/-- With every latency equal to 1 every arc built by `Init` has weight 1, and
the map of `ScheduleASAP` starts at 0 on Entry, increases along every arc and
is determined at every other node by one of its entering arcs. -/
theorem Init_unit_asap (nop : gate) (ckt : circuit) (nqubits : Nat)
    (cycle0 : Nat → Nat) (hne : NonEmptyOps ckt) (hr : InRange ckt nqubits)
    (hnd : NodupOps ckt) (hfit : FitsInt ckt) (hunit : ∀ ins ∈ ckt, ins.latency = 1) :
    (∀ a ∈ (Init nop ckt nqubits).arcs, a.weight = 1) ∧
    (ScheduleASAP (Init nop ckt nqubits) cycle0 []).1 0 = 0 ∧
    (∀ a ∈ (Init nop ckt nqubits).arcs,
      (ScheduleASAP (Init nop ckt nqubits) cycle0 []).1 a.source + 1 ≤
        (ScheduleASAP (Init nop ckt nqubits) cycle0 []).1 a.target) ∧
    (∀ v, 1 ≤ v → v ≤ ckt.length + 1 →
      ∃ a ∈ (Init nop ckt nqubits).arcs, a.target = v ∧ a.source < v ∧
        (ScheduleASAP (Init nop ckt nqubits) cycle0 []).1 v =
          (ScheduleASAP (Init nop ckt nqubits) cycle0 []).1 a.source + 1) := by
  have hl := NodupOps_LastNotRead hnd
  obtain ⟨hn, hinc, htgt, hw, hB⟩ := Init_asap_hyps nop ckt nqubits hr hl hfit
  obtain ⟨p1, p2, p3, p4⟩ := ScheduleASAP_props (Init nop ckt nqubits) cycle0 (ckt.length + 1)
    (2 ^ 31) hn hinc hw hB
  have hw1 : ∀ a ∈ (Init nop ckt nqubits).arcs, a.weight = 1 := by
    intro a ha
    rcases Init_weights_fit nop ckt nqubits hr hfit a ha with h | ⟨ins, hins, h⟩
    · exact h
    · rw [h]; exact hunit ins hins
  refine ⟨hw1, p1, ?_, ?_⟩
  · intro a ha
    have := (p3 a ha (htgt a ha)).2 (by rw [hw1 a ha])
    omega
  · intro v hv1 hv2
    obtain ⟨a, ha, hat, hc⟩ := p4 v hv1 hv2 (Init_in_arc nop ckt nqubits hne hr hl v hv1 hv2)
    refine ⟨a, ha, hat, ?_, ?_⟩
    · have := hinc a ha; omega
    · rw [hc, hw1 a ha]

/-- Every node of the graph built by `Init` other than Exit has a leaving arc. -/
theorem Init_has_out_arc (nop : gate) (ckt : circuit) (nqubits : Nat) (hr : InRange ckt nqubits)
    (u : Nat) (hu : u < ckt.length + 1) :
    ∃ a ∈ (Init nop ckt nqubits).arcs, a.source = u := by
  rcases Init_out_arc nop ckt nqubits hr u hu with ⟨a, ha, hs, -⟩ | h
  · exact ⟨a, ha, hs⟩
  · exact ⟨_, h, rfl⟩

/-- C21: for every sequence with non-empty operand lists, operand indices below
`nQubits`, no operand index repeated inside one instruction and every latency
equal to 1 (the sequence fitting the integer types of the code), the map
computed by `ScheduleALAP` has Exit at `MAX_CYCLE` and every node between 1 and
`MAX_CYCLE`, so that neither `MAX_CYCLE - cycle (u)` nor the subtraction of a
weight wraps around.  For every node `u` other than Exit,
`MAX_CYCLE - cycle (u)` is `1 + max` of `MAX_CYCLE - cycle (v)` over the arcs
`u -> v`: it is at least `1 + (MAX_CYCLE - cycle (v))` for every such arc and
equal to it for one of them, and the loop over the leaving arcs gives
`cycle (u)` in whatever order the arcs are visited.  `MAX_CYCLE` minus the ALAP
cycle of Entry is the ASAP cycle of Exit, and for every node `n` the value
`MAX_CYCLE - cycleALAP (n)` is at most the ASAP cycle of Exit and
`cycleASAP (n) ≤ cycleASAP (Exit) - (MAX_CYCLE - cycleALAP (n))`. -/
theorem ScheduleALAP_unit_latency (nop : gate) (ckt : circuit) (nqubits : Nat)
    (cycleA cycleL : Nat → Nat) (hne : NonEmptyOps ckt) (hr : InRange ckt nqubits)
    (hnd : NodupOps ckt) (hfit : FitsInt ckt) (hunit : ∀ ins ∈ ckt, ins.latency = 1) :
    (ScheduleALAP (Init nop ckt nqubits) cycleL []).1 (Init nop ckt nqubits).t = MAX_CYCLE ∧
    (∀ v, v < (Init nop ckt nqubits).nodeNum →
      1 ≤ (ScheduleALAP (Init nop ckt nqubits) cycleL []).1 v ∧
        (ScheduleALAP (Init nop ckt nqubits) cycleL []).1 v ≤ MAX_CYCLE) ∧
    (∀ u, u < (Init nop ckt nqubits).nodeNum → u ≠ (Init nop ckt nqubits).t →
      (∀ a ∈ (Init nop ckt nqubits).arcs, a.source = u →
        1 + (MAX_CYCLE - (ScheduleALAP (Init nop ckt nqubits) cycleL []).1 a.target) ≤
          MAX_CYCLE - (ScheduleALAP (Init nop ckt nqubits) cycleL []).1 u) ∧
      (∃ a ∈ (Init nop ckt nqubits).arcs, a.source = u ∧
        MAX_CYCLE - (ScheduleALAP (Init nop ckt nqubits) cycleL []).1 u =
          1 + (MAX_CYCLE - (ScheduleALAP (Init nop ckt nqubits) cycleL []).1 a.target)) ∧
      (∀ l : List Arc, l.Perm ((Init nop ckt nqubits).outArcIt u) →
        l.foldl (alapStep (ScheduleALAP (Init nop ckt nqubits) cycleL []).1) MAX_CYCLE =
          (ScheduleALAP (Init nop ckt nqubits) cycleL []).1 u)) ∧
    MAX_CYCLE - (ScheduleALAP (Init nop ckt nqubits) cycleL []).1 (Init nop ckt nqubits).s =
      (ScheduleASAP (Init nop ckt nqubits) cycleA []).1 (Init nop ckt nqubits).t ∧
    (∀ v, v < (Init nop ckt nqubits).nodeNum →
      MAX_CYCLE - (ScheduleALAP (Init nop ckt nqubits) cycleL []).1 v ≤
        (ScheduleASAP (Init nop ckt nqubits) cycleA []).1 (Init nop ckt nqubits).t ∧
      (ScheduleASAP (Init nop ckt nqubits) cycleA []).1 v ≤
        (ScheduleASAP (Init nop ckt nqubits) cycleA []).1 (Init nop ckt nqubits).t -
          (MAX_CYCLE - (ScheduleALAP (Init nop ckt nqubits) cycleL []).1 v)) := by
  have hl := NodupOps_LastNotRead hnd
  obtain ⟨hn, hinc, htgt, -, -⟩ := Init_asap_hyps nop ckt nqubits hr hl hfit
  obtain ⟨hw1, c0, cstep, catt⟩ :=
    Init_unit_asap nop ckt nqubits cycleA hne hr hnd hfit hunit
  have hs := (Init_spec nop ckt nqubits hr).2.2.1
  have ht := (Init_spec nop ckt nqubits hr).2.2.2.1
  have hlen : ckt.length + 1 + 1 < 2 ^ 64 := by
    have := hfit.1
    omega
  obtain ⟨a1, a2, a3, a4⟩ := ScheduleALAP_props (Init nop ckt nqubits) cycleL (ckt.length + 1)
    hn hinc htgt hw1 (Init_has_out_arc nop ckt nqubits hr) hlen
  rw [hn, hs, ht]
  generalize (ScheduleALAP (Init nop ckt nqubits) cycleL []).1 = A at a1 a2 a3 a4 ⊢
  generalize (ScheduleASAP (Init nop ckt nqubits) cycleA []).1 = C at c0 cstep catt ⊢
  generalize Init nop ckt nqubits = g at hinc htgt hw1 cstep catt a3 a4 ⊢
  have hm : MAX_CYCLE = 2 ^ 64 - 1 := rfl
  have hpos : ∀ v, v ≤ ckt.length + 1 → 1 ≤ A v ∧ A v ≤ MAX_CYCLE := by
    intro v hv
    have := a2 v hv
    omega
  have hwalk : ∀ u, u ≤ ckt.length + 1 →
      ∃ p, isWalk g u p (ckt.length + 1) ∧ A u + p.length = MAX_CYCLE := by
    intro u hu
    refine isWalk_to_last_of_attained g A (ckt.length + 1) MAX_CYCLE a1 ?_ u hu
    intro w hw
    obtain ⟨a, ha, has, hlt, hc⟩ := a4 w hw
    exact ⟨a, ha, has, hlt, htgt a ha, hc⟩
  refine ⟨a1, fun v hv => hpos v (by omega), ?_, ?_, ?_⟩
  · intro u hu hut
    have hu1 : u < ckt.length + 1 := by omega
    refine ⟨?_, ?_, ?_⟩
    · intro a ha has
      have h1 := a3 a ha
      have h2 := hpos a.target (htgt a ha)
      rw [has] at h1
      omega
    · obtain ⟨a, ha, has, -, hc⟩ := a4 u hu1
      have h2 := hpos a.target (htgt a ha)
      exact ⟨a, ha, has, by omega⟩
    · intro l hperm
      have hmem : ∀ a, a ∈ l ↔ a ∈ g.arcs ∧ a.source = u := by
        intro a
        rw [hperm.mem_iff, mem_outArcIt]
      have hside : ∀ a ∈ l, a.weight = 1 ∧ 1 ≤ A a.target ∧ A a.target < 2 ^ 64 := by
        intro a ha
        obtain ⟨ham, -⟩ := (hmem a).mp ha
        have := hpos a.target (htgt a ham)
        exact ⟨hw1 a ham, by omega, by omega⟩
      obtain ⟨a0, ha0, hs0, -, hc0⟩ := a4 u hu1
      have hne0 : l ≠ [] := List.ne_nil_of_mem ((hmem a0).mpr ⟨ha0, hs0⟩)
      obtain ⟨-, s2, -⟩ := alapFold_spec A l MAX_CYCLE hside
      obtain ⟨b, hb, hbv⟩ := alapFold_attained A l hne0 hside
      obtain ⟨hbm, hbs⟩ := (hmem b).mp hb
      have h1 := s2 a0 ((hmem a0).mpr ⟨ha0, hs0⟩)
      have h2 := a3 b hbm
      rw [hbs] at h2
      omega
  · obtain ⟨p, hp, hlen1⟩ := hwalk 0 (by omega)
    have h1 := isWalk_length_le g C cstep p 0 (ckt.length + 1) hp
    obtain ⟨q, hq, hlen2⟩ := isWalk_of_attained g C (ckt.length + 1) c0 catt (ckt.length + 1)
      (le_refl _)
    have h2 := isWalk_length_le g A a3 q 0 (ckt.length + 1) hq
    rw [a1] at h2
    omega
  · intro v hv
    have hv1 : v ≤ ckt.length + 1 := by omega
    obtain ⟨p, hp, hlen1⟩ := hwalk v hv1
    have h1 := isWalk_length_le g C cstep p v (ckt.length + 1) hp
    have h2 := hpos v hv1
    omega

/-- C21 applied to a sequence of three instructions with latency 1. -/
theorem ScheduleALAP_unit_latency_witness :
    NonEmptyOps [⟨[0], 1, "a"⟩, ⟨[0, 1], 1, "b"⟩, ⟨[1], 1, "c"⟩] ∧
      InRange [⟨[0], 1, "a"⟩, ⟨[0, 1], 1, "b"⟩, ⟨[1], 1, "c"⟩] 2 ∧
      NodupOps [⟨[0], 1, "a"⟩, ⟨[0, 1], 1, "b"⟩, ⟨[1], 1, "c"⟩] ∧
      FitsInt [⟨[0], 1, "a"⟩, ⟨[0, 1], 1, "b"⟩, ⟨[1], 1, "c"⟩] ∧
      (∀ ins ∈ ([⟨[0], 1, "a"⟩, ⟨[0, 1], 1, "b"⟩, ⟨[1], 1, "c"⟩] : circuit), ins.latency = 1) ∧
      MAX_CYCLE -
          (ScheduleALAP (Init ⟨[], 0, "nop"⟩ [⟨[0], 1, "a"⟩, ⟨[0, 1], 1, "b"⟩, ⟨[1], 1, "c"⟩] 2)
            (fun _ => 0) []).1
            (Init ⟨[], 0, "nop"⟩ [⟨[0], 1, "a"⟩, ⟨[0, 1], 1, "b"⟩, ⟨[1], 1, "c"⟩] 2).s =
        (ScheduleASAP (Init ⟨[], 0, "nop"⟩ [⟨[0], 1, "a"⟩, ⟨[0, 1], 1, "b"⟩, ⟨[1], 1, "c"⟩] 2)
          (fun _ => 0) []).1
          (Init ⟨[], 0, "nop"⟩ [⟨[0], 1, "a"⟩, ⟨[0, 1], 1, "b"⟩, ⟨[1], 1, "c"⟩] 2).t :=
  ⟨by simp [NonEmptyOps], by simp [InRange], by simp [NodupOps], by simp [FitsInt],
    by simp,
    (ScheduleALAP_unit_latency ⟨[], 0, "nop"⟩
      [⟨[0], 1, "a"⟩, ⟨[0, 1], 1, "b"⟩, ⟨[1], 1, "c"⟩] 2 (fun _ => 0) (fun _ => 0)
      (by simp [NonEmptyOps]) (by simp [InRange]) (by simp [NodupOps]) (by simp [FitsInt])
      (by simp)).2.2.2.1⟩

end OpenQL
